import Mathlib

/-! Existential graphs (`aegraph.cpp`): a shallow embedding and its properties.

The C++ class `AEGraph` is a rooted tree: every node carries the flag `is_SA`
(sheet of assertion versus cut), a vector of atoms (`std::string`) and a vector
of nested graphs.  This file embeds the class and its member functions as Lean
definitions and proves the properties of the specification about them.

Modelling conventions.

* `std::string` is `Str := List Char`.  Characters are compared by their code,
  which on 8-bit characters is the order used by `std::string::compare`.
* `std::vector<int>` paths are `List Nat`: every index the code stores in a path
  is a loop counter between `0` and a vector size.
* A call whose behaviour is undefined in C++ (an index outside a vector, a path
  of length zero) or whose assertion fires returns `none`.
* The two loops without an a priori bound (`split_level`, the deduplication of
  `possible_deiterations`) and the recursion of the constructor carry a bound
  that is proved to be large enough (`split_level_loop_fuel`,
  `unique_loop_fuel`, `parseFuel_stable`).
* `std::sort` is modelled by insertion sort.  The order on atoms is linear, and
  graphs are compared through `repr`, so every sorting algorithm produces the
  same sequence of atoms and the same sequence of serializations.
-/

/-- The type of `std::string` values. -/
abbrev Str := List Char

/-- The separator `", "` written by `repr`. -/
def sep : Str := [',', ' ']

/-- The characters `" \n\r\t"` removed by `strip`. -/
def isBlank (c : Char) : Bool :=
  c == ' ' || c == '\n' || c == '\r' || c == '\t'

/-- Source `strip`: erase up to the first character that is not blank, then
erase after the last character that is not blank (everything when there is none). -/
def strip (s : Str) : Str :=
  ((s.dropWhile isBlank).reverse.dropWhile isBlank).reverse

/-- The `for` loop of `split_first`.  `pre` is `s.substr(0, i)`, the third
argument is what remains to be scanned from position `i` on, `numOpen` is the
counter of the source. -/
def split_first_loop (delimiter : Char) : Str → Int → Str → Str × Str
  | pre, _, [] => (strip pre, [])
  | pre, numOpen, c :: rest =>
    if c = delimiter ∧ numOpen = 0 then (strip pre, strip rest)
    else
      let n1 := if c = '[' then numOpen + 1 else numOpen
      let n2 := if c = ']' then n1 - 1 else n1
      split_first_loop delimiter (pre ++ [c]) n2 rest

/-- Source `split_first`: the pair `<first element, rest>`. -/
def split_first (s : Str) (delimiter : Char := ',') : Str × Str :=
  split_first_loop delimiter [] 0 s

/-- The `while (true)` loop of `split_level`, with a bound on the number of
iterations: each iteration strictly shortens `snd`, so `snd.length + 1`
iterations are always enough (`split_level_loop_fuel`). -/
def split_level_loop (delimiter : Char) : Nat → Str → List Str
  | 0, _ => []
  | fuel + 1, snd =>
    let p := split_first snd delimiter
    if p.2 = [] then [p.1] else p.1 :: split_level_loop delimiter fuel p.2

/-- Source `split_level`. -/
def split_level (s : Str) (delimiter : Char := ',') : List Str :=
  split_level_loop delimiter (s.length + 1) s

/-- The comparison `a < b` of `std::string`. -/
def strLt : Str → Str → Bool
  | [], [] => false
  | [], _ :: _ => true
  | _ :: _, [] => false
  | a :: as, b :: bs =>
    if a.toNat < b.toNat then true
    else if b.toNat < a.toNat then false
    else strLt as bs

/-- The class `AEGraph`: the fields `is_SA`, `atoms`, `subgraphs`. -/
inductive AEGraph where
  | mk (is_SA : Bool) (atoms : List Str) (subgraphs : List AEGraph)

namespace AEGraph

/-- Field `is_SA`. -/
def is_SA : AEGraph → Bool
  | mk b _ _ => b

/-- Field `atoms`. -/
def atoms : AEGraph → List Str
  | mk _ a _ => a

/-- Field `subgraphs`. -/
def subgraphs : AEGraph → List AEGraph
  | mk _ _ s => s

mutual
/-- Decision procedure for equality of graphs (field by field). -/
def decEq : (g h : AEGraph) → Decidable (g = h)
  | mk b1 a1 s1, mk b2 a2 s2 =>
    if hb : b1 = b2 then
      if ha : a1 = a2 then
        match decEqList s1 s2 with
        | isTrue hs => isTrue (by rw [hb, ha, hs])
        | isFalse hs => isFalse (fun h => hs (by injection h))
      else isFalse (fun h => ha (by injection h))
    else isFalse (fun h => hb (by injection h))
/-- Decision procedure for equality of vectors of graphs. -/
def decEqList : (gs hs : List AEGraph) → Decidable (gs = hs)
  | [], [] => isTrue rfl
  | [], _ :: _ => isFalse (fun h => by cases h)
  | _ :: _, [] => isFalse (fun h => by cases h)
  | g :: gs, h :: hs =>
    match decEq g h with
    | isTrue h1 =>
      match decEqList gs hs with
      | isTrue h2 => isTrue (by rw [h1, h2])
      | isFalse h2 => isFalse (fun e => h2 (by injection e))
    | isFalse h1 => isFalse (fun e => h1 (by injection e))
end

instance : DecidableEq AEGraph := decEq

/-- Source `num_subgraphs`. -/
def num_subgraphs (g : AEGraph) : Nat := g.subgraphs.length

/-- Source `num_atoms`. -/
def num_atoms (g : AEGraph) : Nat := g.atoms.length

/-- Source `size`. -/
def size (g : AEGraph) : Nat := g.num_atoms + g.num_subgraphs

/-- The atom loop of `repr` for a non-empty vector: every atom but the last is
followed by `", "`. -/
def reprAtoms : List Str → Str
  | [] => []
  | [a] => a
  | a :: b :: as => a ++ sep ++ reprAtoms (b :: as)

mutual
/-- Source `repr`. -/
def repr : AEGraph → Str
  | mk b as sgs =>
    let left : Str := if b then ['('] else ['[']
    let right : Str := if b then [')'] else [']']
    let result := reprSubs sgs
    if as.length ≠ 0 then left ++ (result ++ reprAtoms as) ++ right
    else if sgs.length ≠ 0 then left ++ result.take (result.length - 2) ++ right
    else left ++ result ++ right
/-- The first loop of `repr`: `result += subgraph.repr() + ", "`. -/
def reprSubs : List AEGraph → Str
  | [] => []
  | g :: gs => (repr g ++ sep) ++ reprSubs gs
end

/-- Source `operator<`. -/
def lt (g other : AEGraph) : Bool := strLt g.repr other.repr

/-- Source `operator==`. -/
def eqv (g other : AEGraph) : Bool := decide (g.repr = other.repr)

/-- The model of `std::sort` on a vector compared with `less`: insertion sort,
an element being placed before the first one that is not smaller than it. -/
def std_sort {α : Type} (less : α → α → Bool) (l : List α) : List α :=
  l.insertionSort (fun a b => less b a = false)

mutual
/-- Source `sort`: atoms, then every subgraph recursively, then the subgraphs. -/
def sort : AEGraph → AEGraph
  | mk b as sgs => mk b (std_sort strLt as) (std_sort lt (sortEach sgs))
/-- The loop `for (auto& sg : subgraphs) sg.sort()`. -/
def sortEach : List AEGraph → List AEGraph
  | [] => []
  | g :: gs => sort g :: sortEach gs
end

/-- The loop of the constructor over the elements `v`: an element that does
not start with `[` is an atom, any other is parsed by `rec` (the recursive
constructor call), whose failure is the failure of the whole. -/
def parseElems (rec : Str → Option AEGraph) :
    List Str → Option (List Str × List AEGraph)
  | [] => some ([], [])
  | s :: v =>
    if s.head? ≠ some '[' then
      (parseElems rec v).map (fun r => (s :: r.1, r.2))
    else
      match rec s with
      | none => none
      | some sg => (parseElems rec v).map (fun r => (r.1, sg :: r.2))

/-- Source constructor `AEGraph::AEGraph(std::string)`, with a bound on the
depth of the recursive calls.  `none` is a failed assertion (the empty text,
whose last character does not exist, is counted as one). -/
def parseFuel : Nat → Str → Option AEGraph
  | 0, _ => none
  | fuel + 1, representation =>
    match representation.head?, representation.getLast? with
    | some left_sep, some right_sep =>
      if (left_sep = '(' ∧ right_sep = ')') ∨ (left_sep = '[' ∧ right_sep = ']') then
        let v := split_level ((representation.drop 1).take (representation.length - 2))
        match parseElems (parseFuel fuel) v with
        | none => none
        | some r => some (sort (mk (left_sep == '(') r.1 r.2))
      else none
    | _, _ => none

/-- The constructor: a text of length `n` never needs more than `n` nested
calls (`parseFuel_mono`). -/
def parse (s : Str) : Option AEGraph := parseFuel s.length s

mutual
/-- Source `contains(const std::string)`. -/
def contains : AEGraph → Str → Bool
  | mk _ as sgs, other => if other ∈ as then true else containsIn sgs other
/-- The loop `for (sg : subgraphs) if (sg.contains(other)) return true`. -/
def containsIn : List AEGraph → Str → Bool
  | [], _ => false
  | sg :: sgs, other => if contains sg other then true else containsIn sgs other
end

mutual
/-- Source `contains(const AEGraph&)`; `find` compares with `operator==`. -/
def contains_graph : AEGraph → AEGraph → Bool
  | mk _ _ sgs, other =>
    if sgs.any (fun sg => eqv sg other) then true else containsGraphIn sgs other
/-- The loop `for (sg : subgraphs) if (sg.contains(other)) return true`. -/
def containsGraphIn : List AEGraph → AEGraph → Bool
  | [], _ => false
  | sg :: sgs, other => if contains_graph sg other then true else containsGraphIn sgs other
end

/-- The first loop of `get_paths_to(const std::string)`: `i` is the loop
counter, `big` the test `size() > 1`, `len_subgraphs` the offset of atoms. -/
def atomPaths (other : Str) (big : Bool) (len_subgraphs : Nat) : Nat → List Str → List (List Nat)
  | _, [] => []
  | i, a :: as =>
    (if a = other ∧ big = true then [[i + len_subgraphs]] else [])
      ++ atomPaths other big len_subgraphs (i + 1) as

mutual
/-- Source `get_paths_to(const std::string)`. -/
def get_paths_to : AEGraph → Str → List (List Nat)
  | mk _ as sgs, other =>
    atomPaths other (decide (as.length + sgs.length > 1)) sgs.length 0 as
      ++ pathsIn sgs 0 other
/-- The second loop of `get_paths_to(const std::string)`, from index `i` on. -/
def pathsIn : List AEGraph → Nat → Str → List (List Nat)
  | [], _, _ => []
  | sg :: sgs, i, other =>
    (if contains sg other then (get_paths_to sg other).map (fun v => i :: v) else [])
      ++ pathsIn sgs (i + 1) other
end

mutual
/-- Source `get_paths_to(const AEGraph&)`. -/
def get_paths_to_graph : AEGraph → AEGraph → List (List Nat)
  | mk _ as sgs, other =>
    graphPathsIn (decide (as.length + sgs.length > 1)) sgs 0 other
/-- The loop of `get_paths_to(const AEGraph&)`, from index `i` on; `big` is
the test `size() > 1` of the node that owns the vector. -/
def graphPathsIn (big : Bool) : List AEGraph → Nat → AEGraph → List (List Nat)
  | [], _, _ => []
  | sg :: sgs, i, other =>
    (if eqv sg other = true ∧ big = true then [[i]]
     else (get_paths_to_graph sg other).map (fun v => i :: v))
      ++ graphPathsIn big sgs (i + 1) other
end

mutual
/-- Source `possible_double_cuts`. -/
def possible_double_cuts : AEGraph → List (List Nat)
  | mk _ _ sgs => doubleCutsIn sgs 0
/-- The loop of `possible_double_cuts`, from index `i` on. -/
def doubleCutsIn : List AEGraph → Nat → List (List Nat)
  | [], _ => []
  | sg :: sgs, i =>
    (if sg.num_subgraphs = 1 ∧ sg.size = 1 then [[i]] else [])
      ++ (possible_double_cuts sg).map (fun v => i :: v)
      ++ doubleCutsIn sgs (i + 1)
end

/-- The navigation shared by `double_cut`, `erase` and `deiterate`: follow
`where[0 .. len - 2]` through the `subgraphs` vectors, change the node reached
with `f where[len - 1]`, and return the whole graph.  An index outside a vector
and the empty path are undefined behaviour in the source (`none`). -/
def at_path (f : Nat → AEGraph → Option AEGraph) : AEGraph → List Nat → Option AEGraph
  | _, [] => none
  | g, [index] => f index g
  | g, i :: j :: rest =>
    match g.subgraphs[i]? with
    | none => none
    | some sg =>
      (at_path f sg (j :: rest)).map (fun sg1 => mk g.is_SA g.atoms (g.subgraphs.set i sg1))

/-- The body of `double_cut` at the node `pg`: append the subgraphs and atoms of
`pg->subgraphs[index].subgraphs[0]`, then erase `pg->subgraphs[index]`.  The
two ranges are copied as they are before the call. -/
def double_cut_here (index : Nat) (pg : AEGraph) : Option AEGraph :=
  match pg.subgraphs[index]? with
  | none => none
  | some outer =>
    match outer.subgraphs[0]? with
    | none => none
    | some inner =>
      some (mk pg.is_SA (pg.atoms ++ inner.atoms)
        ((pg.subgraphs ++ inner.subgraphs).eraseIdx index))

/-- Source `double_cut`. -/
def double_cut (g : AEGraph) (wh : List Nat) : Option AEGraph :=
  at_path double_cut_here g wh

mutual
/-- Source `possible_erasures`.  The remainder `%` of C++ truncates (`Int.tmod`). -/
def possible_erasures : AEGraph → Int → List (List Nat)
  | mk b as sgs, level =>
    let pe := erasuresIn sgs 0 (level + 1)
    if (level + 2).tmod 2 = 1 then
      if as.length + sgs.length = 1 ∧ b = false then pe
      else pe ++ (List.range sgs.length).map (fun i => [i])
        ++ (List.range as.length).map (fun i => [sgs.length + i])
    else pe
/-- The first loop of `possible_erasures`, from index `i` on. -/
def erasuresIn : List AEGraph → Nat → Int → List (List Nat)
  | [], _, _ => []
  | sg :: sgs, i, level =>
    (possible_erasures sg level).map (fun v => i :: v) ++ erasuresIn sgs (i + 1) level
end

/-- The body of `erase` and of `deiterate` at the node `pg`. -/
def erase_here (index : Nat) (pg : AEGraph) : Option AEGraph :=
  if index ≥ pg.num_subgraphs then
    if index - pg.num_subgraphs < pg.num_atoms then
      some (mk pg.is_SA (pg.atoms.eraseIdx (index - pg.num_subgraphs)) pg.subgraphs)
    else none
  else some (mk pg.is_SA pg.atoms (pg.subgraphs.eraseIdx index))

/-- Source `erase`. -/
def erase (g : AEGraph) (wh : List Nat) : Option AEGraph :=
  at_path erase_here g wh

/-- Source `deiterate`. -/
def deiterate (g : AEGraph) (wh : List Nat) : Option AEGraph :=
  at_path erase_here g wh

/-- The scan `for (it = r.begin(); ...) if (it->size() == 1) { index = it; nr++; }`
from position `pos` on; the state is the pair `(index, nr)`. -/
def scan_single : Nat → Nat × Nat → List (List Nat) → Nat × Nat
  | _, st, [] => st
  | pos, st, v :: r =>
    scan_single (pos + 1) (if v.length = 1 then (pos, st.2 + 1) else st) r

/-- The scan followed by `if (nr == 1) r.erase(index)`. -/
def drop_single (r : List (List Nat)) : List (List Nat) :=
  let st := scan_single 0 (0, 0) r
  if st.2 = 1 then r.eraseIdx st.1 else r

/-- The loop `for (it ...) pd.erase(std::remove(it + 1, pd.end(), *it), pd.end())`
with a bound on the number of iterations (the length of `pd` is enough). -/
def unique_loop : Nat → List (List Nat) → List (List Nat)
  | 0, pd => pd
  | _ + 1, [] => []
  | n + 1, v :: pd => v :: unique_loop n (pd.filter (fun w => w ≠ v))

/-- The final loop of `possible_deiterations`. -/
def unique (pd : List (List Nat)) : List (List Nat) := unique_loop pd.length pd

mutual
/-- Source `possible_deiterations`. -/
def possible_deiterations : AEGraph → List (List Nat)
  | mk b as sgs =>
    unique (deiterationsIn (mk b as sgs) sgs 0
      ++ as.flatMap (fun a => drop_single (get_paths_to (mk b as sgs) a)))
/-- The first loop of `possible_deiterations`, from index `i` on; `self` is
`*this`, in which the paths to `subgraphs[i]` are looked up. -/
def deiterationsIn : AEGraph → List AEGraph → Nat → List (List Nat)
  | _, [], _ => []
  | self, sg :: sgs, i =>
    drop_single (get_paths_to_graph self sg)
      ++ (possible_deiterations sg).map (fun v => i :: v)
      ++ deiterationsIn self sgs (i + 1)
end

/-! ### Vocabulary of the specification: nodes and elements addressed by paths -/

/-- The opening bracket of a node. -/
def left_br (g : AEGraph) : Str := if g.is_SA then ['('] else ['[']

/-- The closing bracket of a node. -/
def right_br (g : AEGraph) : Str := if g.is_SA then [')'] else [']']

/-- The node reached from `g` by following the indices of a path through the
`subgraphs` vectors (the loop `pg = &pg->subgraphs[where[i]]`). -/
def node_at : AEGraph → List Nat → Option AEGraph
  | g, [] => some g
  | g, i :: q =>
    match g.subgraphs[i]? with
    | none => none
    | some sg => node_at sg q

/-- The graph `g` in which the node at path `q` is replaced by `n`; every node
that is not on the path is kept as it is. -/
def set_node : AEGraph → List Nat → AEGraph → AEGraph
  | _, [], n => n
  | g, i :: q, n =>
    match g.subgraphs[i]? with
    | none => g
    | some sg => mk g.is_SA g.atoms (g.subgraphs.set i (set_node sg q n))

/-- An element of a node: an atom or a cut. -/
inductive Elem where
  | atom (a : Str)
  | cut (c : AEGraph)

/-- The element with index `i` of the node `n`, child cuts first, then atoms. -/
def child (n : AEGraph) (i : Nat) : Option Elem :=
  if i < n.num_subgraphs then n.subgraphs[i]?.map Elem.cut
  else n.atoms[i - n.num_subgraphs]?.map Elem.atom

/-- The element addressed by a path: all indices but the last select child
cuts, the last selects an element of the node reached. -/
def elem_at (g : AEGraph) (p : List Nat) : Option Elem :=
  match p.getLast? with
  | none => none
  | some i =>
    match node_at g p.dropLast with
    | none => none
    | some n => child n i

/-- Two elements are structurally identical: the same atom symbol, or two cuts
with the same serialization. -/
def Elem.same : Elem → Elem → Prop
  | Elem.atom a, Elem.atom b => a = b
  | Elem.cut c, Elem.cut d => repr c = repr d
  | _, _ => False

/-- Every node below the root is a cut, as in every graph built by the constructor. -/
def nested_cuts (g : AEGraph) : Prop :=
  ∀ q n, q ≠ [] → node_at g q = some n → n.is_SA = false

/-- The inverse of the local effect of `double_cut` at a node `n`: the last
`na` atoms and the last `ns` subgraphs of `n` are taken out of `n` and put into
a node of kind `fi`, alone inside a node of kind `fo`, which becomes the
subgraph with index `i` of `n`. -/
def wrap_double (i na ns : Nat) (fo fi : Bool) (n : AEGraph) : AEGraph :=
  mk n.is_SA (n.atoms.take (n.atoms.length - na))
    ((n.subgraphs.take (n.subgraphs.length - ns)).insertIdx i
      (mk fo [] [mk fi (n.atoms.drop (n.atoms.length - na))
        (n.subgraphs.drop (n.subgraphs.length - ns))]))

/-- The relation `a ≤ b` on strings used by the sort of atoms. -/
abbrev strLe (a b : Str) : Prop := strLt b a = false

/-- The relation `g ≤ h` on graphs used by the sort of subgraphs. -/
abbrev graphLe (g h : AEGraph) : Prop := lt h g = false

/-- The counter `numOpen` of `split_first` after the scan of `e` from the value
`n`; `none` when the scan meets a `,` while the counter is zero, which is where
`split_first` cuts. -/
def scan_elem : Int → Str → Option Int
  | n, [] => some n
  | n, c :: rest =>
    if c = ',' ∧ n = 0 then none
    else scan_elem (if c = ']' then (if c = '[' then n + 1 else n) - 1
      else (if c = '[' then n + 1 else n)) rest

/-- An atom without square brackets. -/
def plain (a : Str) : Prop := ∀ c ∈ a, c ≠ '[' ∧ c ≠ ']'

/-- The property `P` holds of every node of the graph. -/
def all_nodes (P : AEGraph → Prop) (g : AEGraph) : Prop :=
  ∀ q N, node_at g q = some N → P N

/-- The node is in canonical form: its atoms are sorted, and its subgraphs are
sorted by serialization. -/
def sorted_node (N : AEGraph) : Prop :=
  N.atoms.Sorted strLe ∧ N.subgraphs.Sorted graphLe

/-- The graph is in canonical form: every node is. -/
def canonical (g : AEGraph) : Prop := all_nodes sorted_node g

/-- The condition under which a node is read back from its serialization: no
atom contains a square bracket, and the empty atom is not the last element of
a node with two or more elements. -/
def readable_node (N : AEGraph) : Prop :=
  (∀ a ∈ N.atoms, plain a) ∧ (2 ≤ N.size → N.atoms.getLast? ≠ some [])

/-- Every node of the graph is read back from its serialization. -/
def readable (g : AEGraph) : Prop := all_nodes readable_node g

/-- The paths of length one in a list of paths. -/
def singles (r : List (List Nat)) : List (List Nat) :=
  r.filter (fun v => decide (v.length = 1))

/-- The test of the assertion of the constructor: the first and the last
character are `(` and `)`, or `[` and `]`. -/
def delimited (s : Str) : Prop :=
  (s.head? = some '(' ∧ s.getLast? = some ')') ∨ (s.head? = some '[' ∧ s.getLast? = some ']')

/-- The text between the outer brackets: `representation.substr(1, size - 2)`. -/
def inner_text (s : Str) : Str := (s.drop 1).take (s.length - 2)

/-- A string without a blank at either end. -/
def Tight (s : Str) : Prop :=
  (∀ c, s.head? = some c → isBlank c = false) ∧ (∀ c, s.getLast? = some c → isBlank c = false)

/-- What the constructor guarantees of every node it builds: no atom has a
blank at its ends, an atom without square brackets holds no `,`, and the node
has at least one element. -/
def parsed_node (N : AEGraph) : Prop :=
  (∀ a ∈ N.atoms, Tight a ∧ (plain a → ',' ∉ a)) ∧ 1 ≤ N.size

/-- The number of direct children of the top node of `g` that are structurally
identical to the element `x`. -/
def direct_count (g : AEGraph) : Elem → Nat
  | Elem.atom a => g.atoms.countP (fun x => decide (x = a))
  | Elem.cut c => g.subgraphs.countP (fun sg => eqv sg c)

/-- The paths collected by the two loops of `possible_deiterations`, before the
final deduplication. -/
def collected_deiterations (g : AEGraph) : List (List Nat) :=
  deiterationsIn g g.subgraphs 0
    ++ g.atoms.flatMap (fun a => drop_single (get_paths_to g a))

end AEGraph

/-! ## Theorems -/

namespace AEGraph

@[simp] theorem is_SA_mk (b : Bool) (as : List Str) (sgs : List AEGraph) :
    (mk b as sgs).is_SA = b := rfl

@[simp] theorem atoms_mk (b : Bool) (as : List Str) (sgs : List AEGraph) :
    (mk b as sgs).atoms = as := rfl

@[simp] theorem subgraphs_mk (b : Bool) (as : List Str) (sgs : List AEGraph) :
    (mk b as sgs).subgraphs = sgs := rfl

/-- Induction over graphs: a property holds of a node when it holds of all its subgraphs. -/
theorem induct {P : AEGraph → Prop}
    (h : ∀ b as sgs, (∀ sg ∈ sgs, P sg) → P (mk b as sgs)) : ∀ g, P g := by
  intro g
  refine @AEGraph.rec P (fun l => ∀ sg ∈ l, P sg) ?_ ?_ ?_ g
  · intro b as sgs ih; exact h b as sgs ih
  · intro sg hsg; cases hsg
  · intro hd tl h1 h2 sg hsg
    rcases List.mem_cons.1 hsg with rfl | h3
    · exact h1
    · exact h2 sg h3

theorem reprAtoms_eq (l : List Str) : reprAtoms l = sep.intercalate l := by
  induction l with
  | nil => rfl
  | cons a l ih =>
    cases l with
    | nil => simp [reprAtoms, List.intercalate]
    | cons b l =>
      rw [reprAtoms, ih]
      simp [List.intercalate, List.intersperse]

theorem reprSubs_eq (l : List AEGraph) : reprSubs l = (l.map (fun g => repr g ++ sep)).flatten := by
  induction l with
  | nil => rfl
  | cons a l ih => rw [reprSubs, ih]; simp

theorem intercalate_cons_cons (a b : Str) (l : List Str) :
    sep.intercalate (a :: b :: l) = a ++ sep ++ sep.intercalate (b :: l) := by
  simp [List.intercalate, List.intersperse]

theorem flatten_sep_eq (l : List Str) (m : List Str) (hm : m ≠ []) :
    (l.map (fun s => s ++ sep)).flatten ++ sep.intercalate m = sep.intercalate (l ++ m) := by
  induction l with
  | nil => simp
  | cons a l ih =>
    cases l with
    | nil =>
      cases m with
      | nil => exact absurd rfl hm
      | cons b m => simp [intercalate_cons_cons]
    | cons c l =>
      rw [List.cons_append, List.cons_append, intercalate_cons_cons, ← List.cons_append, ← ih]
      simp

theorem flatten_sep_take (l : List Str) (hl : l ≠ []) :
    ((l.map (fun s => s ++ sep)).flatten).take (((l.map (fun s => s ++ sep)).flatten).length - 2)
      = sep.intercalate l := by
  have h : (l.map (fun s => s ++ sep)).flatten = sep.intercalate l ++ sep := by
    induction l with
    | nil => exact absurd rfl hl
    | cons a l ih =>
      cases l with
      | nil => simp [List.intercalate]
      | cons c l =>
        rw [intercalate_cons_cons, List.map_cons, List.flatten_cons, ih (by simp)]
        simp
  rw [h]
  simp [sep]

theorem repr_eq (g : AEGraph) :
    repr g = (if g.is_SA then ['('] else ['['])
      ++ sep.intercalate (g.subgraphs.map repr ++ g.atoms)
      ++ (if g.is_SA then [')'] else [']']) := by
  cases g with
  | mk b as sgs =>
    have hs : reprSubs sgs = ((sgs.map repr).map (fun s => s ++ sep)).flatten := by
      rw [reprSubs_eq]; simp [Function.comp_def]
    simp only [AEGraph.repr, is_SA, subgraphs, atoms]
    by_cases ha : as.length ≠ 0
    · rw [if_pos ha, hs, reprAtoms_eq, flatten_sep_eq _ _ (by intro h; simp [h] at ha)]
    · rw [if_neg ha]
      have ha' : as = [] := by simpa using ha
      subst ha'
      by_cases hg : sgs.length ≠ 0
      · rw [if_pos hg, hs, flatten_sep_take _ (by intro h; simp at h; simp [h] at hg)]
        simp
      · rw [if_neg hg]
        have hg' : sgs = [] := by simpa using hg
        subst hg'
        simp [reprSubs, List.intercalate]

theorem intercalate_getLast (l : List Str) (x : Str) (h : l.getLast? = some x) :
    ∃ z, sep.intercalate l = z ++ x := by
  induction l with
  | nil => simp at h
  | cons a l ih =>
    cases l with
    | nil =>
      simp at h
      exact ⟨[], by simp [List.intercalate, h]⟩
    | cons b l =>
      rw [List.getLast?_cons_cons] at h
      obtain ⟨z, hz⟩ := ih h
      exact ⟨a ++ sep ++ z, by rw [intercalate_cons_cons, hz]; simp⟩

theorem repr_last (g : AEGraph) : ∃ y k, repr g = y ++ [k] ∧ (k = ')' ∨ k = ']') := by
  rw [repr_eq g]
  cases g.is_SA
  · exact ⟨_, ']', rfl, Or.inr rfl⟩
  · exact ⟨_, ')', rfl, Or.inl rfl⟩

/-- C9: `repr` writes the opening bracket of the node, the serializations of
the child cuts followed by the atoms, all joined by `", "`, and the closing
bracket; when the last element is a cut no separator stands before the closing
bracket, and a node without elements is written as its two brackets. -/
theorem repr_format (g : AEGraph) :
    repr g = left_br g ++ sep.intercalate (g.subgraphs.map repr ++ g.atoms) ++ right_br g
    ∧ (g.atoms = [] → g.subgraphs ≠ [] → ¬ (sep ++ right_br g) <:+ repr g)
    ∧ (g.atoms = [] → g.subgraphs = [] → repr g = left_br g ++ right_br g) := by
  refine ⟨repr_eq g, ?_, ?_⟩
  · intro ha hs hsuf
    obtain ⟨c, hc⟩ : ∃ c, g.subgraphs.getLast? = some c := by
      cases h : g.subgraphs.getLast? with
      | none => exact absurd (List.getLast?_eq_none_iff.1 h) hs
      | some c => exact ⟨c, rfl⟩
    have hl : (g.subgraphs.map repr ++ g.atoms).getLast? = some (repr c) := by
      rw [ha, List.append_nil, List.getLast?_map, hc]; rfl
    obtain ⟨z, hz⟩ := intercalate_getLast _ _ hl
    obtain ⟨y, k, hy, hk⟩ := repr_last c
    obtain ⟨t, ht⟩ := hsuf
    rw [repr_eq g, hz, hy] at ht
    have e : (t ++ [',']) ++ ([' '] ++ right_br g)
        = ((if g.is_SA then ['('] else ['[']) ++ (z ++ y)) ++ ([k] ++ right_br g) := by
      have : (t ++ [',']) ++ ([' '] ++ right_br g) = t ++ (sep ++ right_br g) := by simp [sep]
      rw [this, ht]; simp [right_br]
    have h2 := (List.append_inj' e (by simp)).2
    have h3 : ' ' = k := by simpa using h2
    rcases hk with hk | hk <;> rw [hk] at h3 <;> exact absurd h3 (by decide)
  · intro ha hs
    rw [repr_eq g, ha, hs]
    simp [left_br, right_br, List.intercalate]

/-- The witness of C9: the sheet `([A])`, whose last element is a cut, and
the empty cut `[]`. -/
theorem repr_format_witness :
    repr (mk true [] [mk false ["A".toList] []]) = "([A])".toList
    ∧ ¬ (sep ++ right_br (mk true [] [mk false ["A".toList] []]))
        <:+ repr (mk true [] [mk false ["A".toList] []])
    ∧ repr (mk false [] []) = left_br (mk false [] []) ++ right_br (mk false [] [])
    ∧ repr (mk false [] []) = "[]".toList :=
  ⟨by decide, (repr_format (mk true [] [mk false ["A".toList] []])).2.1 rfl (by simp),
    (repr_format (mk false [] [])).2.2 rfl rfl, by decide⟩


/-! ### Double cuts -/

theorem mem_doubleCutsIn (sgs : List AEGraph) : ∀ (i : Nat) (p : List Nat),
    p ∈ doubleCutsIn sgs i ↔ ∃ k sg, sgs[k]? = some sg ∧
      ((p = [i + k] ∧ sg.num_subgraphs = 1 ∧ sg.size = 1)
        ∨ ∃ p1, p1 ∈ possible_double_cuts sg ∧ p = (i + k) :: p1) := by
  induction sgs with
  | nil => intro i p; simp [doubleCutsIn]
  | cons sg sgs ih =>
    intro i p
    rw [doubleCutsIn, List.mem_append, List.mem_append, ih (i + 1) p]
    constructor
    · rintro ((h | h) | ⟨k, sg1, hk, h⟩)
      · refine ⟨0, sg, List.getElem?_cons_zero, Or.inl ?_⟩
        split at h
        · rename_i hc; exact ⟨by simpa using h, hc⟩
        · simp at h
      · obtain ⟨p1, hp1, rfl⟩ := List.mem_map.1 h
        exact ⟨0, sg, List.getElem?_cons_zero, Or.inr ⟨p1, hp1, rfl⟩⟩
      · refine ⟨k + 1, sg1, by simpa using hk, ?_⟩
        have e : i + (k + 1) = i + 1 + k := by omega
        rw [e]; exact h
    · rintro ⟨k, sg1, hk, h⟩
      cases k with
      | zero =>
        simp at hk; subst hk
        rcases h with ⟨rfl, hc⟩ | ⟨p1, hp1, rfl⟩
        · exact Or.inl (Or.inl (by simp [hc]))
        · exact Or.inl (Or.inr (List.mem_map.2 ⟨p1, hp1, rfl⟩))
      | succ k =>
        refine Or.inr ⟨k, sg1, by simpa using hk, ?_⟩
        have e : i + (k + 1) = i + 1 + k := by omega
        rw [← e]; exact h

theorem mem_possible_double_cuts : ∀ (g : AEGraph) (p : List Nat),
    p ∈ possible_double_cuts g ↔
      p ≠ [] ∧ ∃ c, node_at g p = some c ∧ c.num_subgraphs = 1 ∧ c.size = 1 := by
  intro g
  induction g using AEGraph.induct with
  | h b as sgs ih =>
    intro p
    rw [possible_double_cuts, mem_doubleCutsIn]
    constructor
    · rintro ⟨k, sg, hk, h⟩
      have hm : sg ∈ sgs := List.getElem?_mem hk
      rcases h with ⟨rfl, hc⟩ | ⟨p1, hp1, rfl⟩
      · exact ⟨by simp, sg, by simp [node_at, subgraphs, hk], hc⟩
      · obtain ⟨_, c, hc, hcc⟩ := (ih sg hm p1).1 hp1
        exact ⟨by simp, c, by simp [node_at, subgraphs, hk, hc], hcc⟩
    · rintro ⟨hne, c, hc, hcc⟩
      cases p with
      | nil => exact absurd rfl hne
      | cons k p1 =>
        rw [node_at] at hc
        simp only [subgraphs] at hc
        cases hk : sgs[k]? with
        | none => simp [hk] at hc
        | some sg =>
          simp only [hk] at hc
          have hm : sg ∈ sgs := List.getElem?_mem hk
          refine ⟨k, sg, hk, ?_⟩
          cases p1 with
          | nil =>
            simp [node_at] at hc; subst hc
            exact Or.inl ⟨by simp, hcc⟩
          | cons j p2 =>
            exact Or.inr ⟨j :: p2, (ih sg hm _).2 ⟨by simp, c, hc, hcc⟩, by simp⟩

/-- C2: a path is returned by `possible_double_cuts` exactly when it is not
empty, each of its indices selects an existing subgraph of the node reached so
far, and the cut it addresses has one child cut and no other content. -/
theorem possible_double_cuts_char :
    (∀ (g : AEGraph) (p : List Nat), p ∈ possible_double_cuts g ↔
      p ≠ [] ∧ ∃ c, node_at g p = some c ∧ c.num_subgraphs = 1 ∧ c.size = 1)
    ∧ (parse "([A])".toList).map possible_double_cuts = some []
    ∧ (parse "([[A]])".toList).map possible_double_cuts = some [[0]] :=
  ⟨mem_possible_double_cuts, by decide, by decide⟩


/-! ### Navigation along a path -/

theorem eta (g : AEGraph) : mk g.is_SA g.atoms g.subgraphs = g := by
  cases g; rfl

theorem node_at_append (q : List Nat) : ∀ (g : AEGraph) (r : List Nat),
    node_at g (q ++ r) = (node_at g q).bind (fun n => node_at n r) := by
  induction q with
  | nil => intro g r; rfl
  | cons i q ih =>
    intro g r
    rw [List.cons_append, node_at, node_at]
    cases g.subgraphs[i]? with
    | none => rfl
    | some sg => exact ih sg r

theorem node_at_single (g : AEGraph) (i : Nat) : node_at g [i] = g.subgraphs[i]? := by
  rw [node_at]
  cases g.subgraphs[i]? <;> rfl

theorem at_path_append (f : Nat → AEGraph → Option AEGraph) (q : List Nat) :
    ∀ (g : AEGraph) (i : Nat), at_path f g (q ++ [i]) =
      (node_at g q).bind (fun n => (f i n).map (fun n1 => set_node g q n1)) := by
  induction q with
  | nil =>
    intro g i
    simp only [List.nil_append, at_path, node_at, set_node, Option.some_bind]
    cases f i g <;> rfl
  | cons k q ih =>
    intro g i
    have e : k :: q ++ [i] = k :: (q ++ [i]) := rfl
    rw [e]
    cases hq : q ++ [i] with
    | nil => simp at hq
    | cons j rest =>
      rw [at_path, node_at, ← hq]
      cases hk : g.subgraphs[k]? with
      | none => rfl
      | some sg =>
        simp only []
        rw [ih sg i]
        cases node_at sg q with
        | none => rfl
        | some n => simp [set_node, hk]; rfl

theorem set_self {α : Type} (l : List α) : ∀ (i : Nat) (a : α), l[i]? = some a → l.set i a = l := by
  induction l with
  | nil => intro i a h; simp at h
  | cons x l ih =>
    intro i a h
    cases i with
    | zero => simp at h; simp [h]
    | succ i => simp at h; simp [ih i a h]

theorem set_node_self (q : List Nat) : ∀ (g n : AEGraph),
    node_at g q = some n → set_node g q n = g := by
  induction q with
  | nil => intro g n h; simp [node_at] at h; simp [set_node, h]
  | cons k q ih =>
    intro g n h
    rw [node_at] at h
    rw [set_node]
    cases hk : g.subgraphs[k]? with
    | none => rfl
    | some sg =>
      simp only [hk] at h
      simp only []
      rw [ih sg n h, set_self _ _ _ hk, eta]

theorem set_node_set_node (q : List Nat) : ∀ (g n m : AEGraph),
    set_node (set_node g q n) q m = set_node g q m := by
  induction q with
  | nil => intro g n m; rfl
  | cons k q ih =>
    intro g n m
    cases hk : g.subgraphs[k]? with
    | none => simp [set_node, hk]
    | some sg =>
      have hlt : k < g.subgraphs.length := (List.getElem?_eq_some.1 hk).1
      simp [set_node, hk, hlt, ih]

theorem node_at_set_node (q : List Nat) : ∀ (g n m : AEGraph),
    node_at g q = some n → node_at (set_node g q m) q = some m := by
  induction q with
  | nil => intro g n m _; rfl
  | cons k q ih =>
    intro g n m h
    rw [node_at] at h
    cases hk : g.subgraphs[k]? with
    | none => simp [hk] at h
    | some sg =>
      simp only [hk] at h
      have hlt : k < g.subgraphs.length := (List.getElem?_eq_some.1 hk).1
      simp [set_node, node_at, hk, hlt, ih sg n m h]

theorem insertIdx_eraseIdx_self {α : Type} (l : List α) : ∀ (i : Nat) (a : α),
    l[i]? = some a → (l.eraseIdx i).insertIdx i a = l := by
  induction l with
  | nil => intro i a h; simp at h
  | cons x l ih =>
    intro i a h
    cases i with
    | zero => simp at h; simp [h]
    | succ i => simp at h; simp [ih i a h]

theorem path_split (p : List Nat) (h : p ≠ []) : ∃ q i, p = q ++ [i] :=
  ⟨p.dropLast, p.getLast h, (List.dropLast_append_getLast h).symm⟩


/-! ### The effect of `double_cut` and of `erase` -/

theorem single_content (c : AEGraph) (h1 : c.num_subgraphs = 1) (h2 : c.size = 1) :
    c.atoms = [] ∧ ∃ inner, c.subgraphs = [inner] := by
  cases c with
  | mk b as sgs =>
    simp only [num_subgraphs, size, num_atoms, subgraphs_mk, atoms_mk] at h1 h2 ⊢
    refine ⟨List.length_eq_zero.1 (by omega), ?_⟩
    cases sgs with
    | nil => simp at h1
    | cons x l =>
      cases l with
      | nil => exact ⟨x, rfl⟩
      | cons y l => simp at h1

/-- C3: `double_cut` at a path returned by `possible_double_cuts` changes the
graph only at the node `N` that contains the double cut: the outer cut `O`
(with index `i`) and its only content, the inner cut `I`, are removed, the child
cuts and the atoms of `I` are appended to those of `N`, and putting them back
inside two nested nodes at index `i` gives the original graph. The two nodes
are cuts whenever every node below the root of `g` is one. -/
theorem double_cut_effect (g : AEGraph) (p : List Nat) (h : p ∈ possible_double_cuts g) :
    ∃ q i N O I g1, p = q ++ [i] ∧ node_at g q = some N ∧ N.subgraphs[i]? = some O
      ∧ O.atoms = [] ∧ O.subgraphs = [I]
      ∧ (nested_cuts g → O.is_SA = false ∧ I.is_SA = false)
      ∧ double_cut g p = some g1
      ∧ g1 = set_node g q
          (mk N.is_SA (N.atoms ++ I.atoms) (N.subgraphs.eraseIdx i ++ I.subgraphs))
      ∧ node_at g1 q =
          some (mk N.is_SA (N.atoms ++ I.atoms) (N.subgraphs.eraseIdx i ++ I.subgraphs))
      ∧ set_node g1 q (wrap_double i I.atoms.length I.subgraphs.length O.is_SA I.is_SA
          (mk N.is_SA (N.atoms ++ I.atoms) (N.subgraphs.eraseIdx i ++ I.subgraphs))) = g := by
  obtain ⟨hne, c, hc, hc1, hc2⟩ := (mem_possible_double_cuts g p).1 h
  obtain ⟨q, i, rfl⟩ := path_split p hne
  rw [node_at_append] at hc
  cases hN : node_at g q with
  | none => simp [hN] at hc
  | some N =>
    rw [hN, Option.some_bind, node_at_single] at hc
    obtain ⟨hat, I, hsub⟩ := single_content c hc1 hc2
    have hlt : i < N.subgraphs.length := (List.getElem?_eq_some.1 hc).1
    refine ⟨q, i, N, c, I, _, rfl, hN, hc, hat, hsub, ?_, ?_, rfl,
      node_at_set_node q g N _ hN, ?_⟩
    · intro hcuts
      constructor
      · refine hcuts (q ++ [i]) c (by simp) ?_
        rw [node_at_append, hN, Option.some_bind, node_at_single, hc]
      · refine hcuts (q ++ [i, 0]) I (by simp) ?_
        rw [node_at_append, hN, Option.some_bind, node_at, hc]
        simp [node_at, hsub]
    · rw [double_cut, at_path_append, hN, Option.some_bind, double_cut_here, hc]
      simp only [hsub, List.getElem?_cons_zero, Option.map_some']
      rw [List.eraseIdx_append_of_lt_length hlt]
    · rw [set_node_set_node]
      have hw : wrap_double i I.atoms.length I.subgraphs.length c.is_SA I.is_SA
          (mk N.is_SA (N.atoms ++ I.atoms) (N.subgraphs.eraseIdx i ++ I.subgraphs)) = N := by
        have hc' : mk c.is_SA [] [mk I.is_SA I.atoms I.subgraphs] = c := by
          rw [eta I, ← hat, ← hsub, eta c]
        simp only [wrap_double, is_SA_mk, atoms_mk, subgraphs_mk, List.length_append,
          Nat.add_sub_cancel, List.take_left', List.drop_left', hc']
        rw [insertIdx_eraseIdx_self _ _ _ hc, eta]
      rw [hw]
      exact set_node_self q g N hN

/-- The witness of C3 on `([[A]])`: the double cut at `[0]` is removed and the
result serializes as `(A)`. -/
theorem double_cut_effect_witness :
    parse "([[A]])".toList = some (mk true [] [mk false [] [mk false ["A".toList] []]])
    ∧ [0] ∈ possible_double_cuts (mk true [] [mk false [] [mk false ["A".toList] []]])
    ∧ (double_cut (mk true [] [mk false [] [mk false ["A".toList] []]]) [0]).map repr
        = some "(A)".toList
    ∧ ∃ q i N O I g1, [0] = q ++ [i]
      ∧ node_at (mk true [] [mk false [] [mk false ["A".toList] []]]) q = some N
      ∧ N.subgraphs[i]? = some O
      ∧ O.atoms = [] ∧ O.subgraphs = [I]
      ∧ (nested_cuts (mk true [] [mk false [] [mk false ["A".toList] []]]) →
          O.is_SA = false ∧ I.is_SA = false)
      ∧ double_cut (mk true [] [mk false [] [mk false ["A".toList] []]]) [0] = some g1
      ∧ g1 = set_node (mk true [] [mk false [] [mk false ["A".toList] []]]) q
          (mk N.is_SA (N.atoms ++ I.atoms) (N.subgraphs.eraseIdx i ++ I.subgraphs))
      ∧ node_at g1 q =
          some (mk N.is_SA (N.atoms ++ I.atoms) (N.subgraphs.eraseIdx i ++ I.subgraphs))
      ∧ set_node g1 q (wrap_double i I.atoms.length I.subgraphs.length O.is_SA I.is_SA
          (mk N.is_SA (N.atoms ++ I.atoms) (N.subgraphs.eraseIdx i ++ I.subgraphs)))
          = mk true [] [mk false [] [mk false ["A".toList] []]] :=
  ⟨by decide, by decide, by decide, double_cut_effect _ [0] (by decide)⟩

/-- C5: `erase` at a valid address changes the graph only at the node `N`
that contains the addressed element: an index below `num_subgraphs()` removes
that entry of `subgraphs`, any other index removes the entry
`index - num_subgraphs()` of `atoms`; the remaining elements keep their order. -/
theorem erase_effect (g : AEGraph) (q : List Nat) (i : Nat) (N : AEGraph)
    (hN : node_at g q = some N) (hi : i < N.size) :
    erase g (q ++ [i]) = some (set_node g q
      (if i < N.num_subgraphs then mk N.is_SA N.atoms (N.subgraphs.eraseIdx i)
       else mk N.is_SA (N.atoms.eraseIdx (i - N.num_subgraphs)) N.subgraphs)) := by
  rw [erase, at_path_append, hN, Option.some_bind, erase_here]
  by_cases hlt : i < N.num_subgraphs
  · rw [if_neg (by omega), if_pos hlt]; rfl
  · rw [if_pos (by omega), if_neg hlt, if_pos (by unfold size at hi; omega)]; rfl

/-- The witness of C5 on `([A], [A])`: erasing the element `[0]` leaves `([A])`. -/
theorem erase_effect_witness :
    parse "([A], [A])".toList
      = some (mk true [] [mk false ["A".toList] [], mk false ["A".toList] []])
    ∧ (erase (mk true [] [mk false ["A".toList] [], mk false ["A".toList] []]) ([] ++ [0])).map repr
        = some "([A])".toList
    ∧ erase (mk true [] [mk false ["A".toList] [], mk false ["A".toList] []]) ([] ++ [0])
      = some (set_node (mk true [] [mk false ["A".toList] [], mk false ["A".toList] []]) []
          (if 0 < (mk true [] [mk false ["A".toList] [], mk false ["A".toList] []]).num_subgraphs
           then mk true [] ([mk false ["A".toList] [], mk false ["A".toList] []].eraseIdx 0)
           else mk true ([].eraseIdx
              (0 - (mk true [] [mk false ["A".toList] [], mk false ["A".toList] []]).num_subgraphs))
              [mk false ["A".toList] [], mk false ["A".toList] []])) :=
  ⟨by decide, by decide,
    erase_effect (mk true [] [mk false ["A".toList] [], mk false ["A".toList] []]) [] 0
      (mk true [] [mk false ["A".toList] [], mk false ["A".toList] []]) rfl (by decide)⟩


/-! ### Erasures -/

theorem mem_erasuresIn (sgs : List AEGraph) (level : Int) : ∀ (i : Nat) (p : List Nat),
    p ∈ erasuresIn sgs i level ↔ ∃ k sg p1, sgs[k]? = some sg ∧
      p1 ∈ possible_erasures sg level ∧ p = (i + k) :: p1 := by
  induction sgs with
  | nil => intro i p; simp [erasuresIn]
  | cons sg sgs ih =>
    intro i p
    rw [erasuresIn, List.mem_append, ih (i + 1) p]
    constructor
    · rintro (h | ⟨k, sg1, p1, hk, h1, h2⟩)
      · obtain ⟨p1, hp1, rfl⟩ := List.mem_map.1 h
        exact ⟨0, sg, p1, List.getElem?_cons_zero, hp1, rfl⟩
      · refine ⟨k + 1, sg1, p1, by simpa using hk, h1, ?_⟩
        have e : i + (k + 1) = i + 1 + k := by omega
        rw [e]; exact h2
    · rintro ⟨k, sg1, p1, hk, h1, h2⟩
      cases k with
      | zero =>
        simp at hk; subst hk
        exact Or.inl (List.mem_map.2 ⟨p1, h1, h2.symm⟩)
      | succ k =>
        refine Or.inr ⟨k, sg1, p1, by simpa using hk, h1, ?_⟩
        have e : i + (k + 1) = i + 1 + k := by omega
        rw [← e]; exact h2

/-- The paths returned by `possible_erasures(level)`: the addresses of the
elements of those nodes whose depth `d` below the receiver makes
`(level + d + 2) % 2 == 1`, unless the node is a cut of size one. -/
theorem mem_possible_erasures : ∀ (g : AEGraph) (level : Int) (p : List Nat),
    p ∈ possible_erasures g level ↔
      ∃ q i N, p = q ++ [i] ∧ node_at g q = some N ∧ i < N.size
        ∧ (level + q.length + 2).tmod 2 = 1 ∧ ¬ (N.size = 1 ∧ N.is_SA = false) := by
  intro g
  induction g using AEGraph.induct with
  | h b as sgs ih =>
    intro level p
    have own : (p ∈ (List.range sgs.length).map (fun i => [i])
          ++ (List.range as.length).map (fun i => [sgs.length + i]))
        ↔ ∃ i, p = [i] ∧ i < (mk b as sgs).size := by
      simp only [List.mem_append, List.mem_map, List.mem_range, size, num_atoms,
        num_subgraphs, atoms_mk, subgraphs_mk]
      constructor
      · rintro (⟨i, hi, rfl⟩ | ⟨i, hi, rfl⟩)
        · exact ⟨i, rfl, by omega⟩
        · exact ⟨sgs.length + i, rfl, by omega⟩
      · rintro ⟨i, rfl, hi⟩
        by_cases h : i < sgs.length
        · exact Or.inl ⟨i, h, rfl⟩
        · exact Or.inr ⟨i - sgs.length, by omega, by congr 1; omega⟩
    have deep : p ∈ erasuresIn sgs 0 (level + 1) ↔
        ∃ q i N, q ≠ [] ∧ p = q ++ [i] ∧ node_at (mk b as sgs) q = some N ∧ i < N.size
          ∧ (level + q.length + 2).tmod 2 = 1 ∧ ¬ (N.size = 1 ∧ N.is_SA = false) := by
      rw [mem_erasuresIn]
      constructor
      · rintro ⟨k, sg, p1, hk, hp1, rfl⟩
        obtain ⟨q, i, N, rfl, hN, hi, hl, hc⟩ :=
          (ih sg (List.getElem?_mem hk) (level + 1) p1).1 hp1
        refine ⟨k :: q, i, N, by simp, by simp, by simp [node_at, hk, hN], hi, ?_, hc⟩
        have e : level + ((k :: q).length : Nat) + 2 = level + 1 + (q.length : Nat) + 2 := by
          simp; ring
        rw [e]; exact hl
      · rintro ⟨q, i, N, hq, rfl, hN, hi, hl, hc⟩
        cases q with
        | nil => exact absurd rfl hq
        | cons k q =>
          rw [node_at] at hN
          simp only [subgraphs_mk] at hN
          cases hk : sgs[k]? with
          | none => simp [hk] at hN
          | some sg =>
            simp only [hk] at hN
            refine ⟨k, sg, q ++ [i], hk, ?_, by simp⟩
            refine (ih sg (List.getElem?_mem hk) (level + 1) _).2 ⟨q, i, N, rfl, hN, hi, ?_, hc⟩
            have e : level + ((k :: q).length : Nat) + 2 = level + 1 + (q.length : Nat) + 2 := by
              simp; ring
            rw [← e]; exact hl
    have root : (∃ i, p = [i] ∧ i < (mk b as sgs).size) ∧ (level + 2).tmod 2 = 1
          ∧ ¬ ((mk b as sgs).size = 1 ∧ b = false) ↔
        ∃ q i N, q = [] ∧ p = q ++ [i] ∧ node_at (mk b as sgs) q = some N ∧ i < N.size
          ∧ (level + q.length + 2).tmod 2 = 1 ∧ ¬ (N.size = 1 ∧ N.is_SA = false) := by
      constructor
      · rintro ⟨⟨i, rfl, hi⟩, hl, hc⟩
        exact ⟨[], i, mk b as sgs, rfl, rfl, rfl, hi, by simpa using hl, hc⟩
      · rintro ⟨q, i, N, rfl, rfl, hN, hi, hl, hc⟩
        simp only [node_at, Option.some.injEq] at hN
        subst hN
        exact ⟨⟨i, rfl, hi⟩, by simpa using hl, hc⟩
    have split : (∃ q i N, p = q ++ [i] ∧ node_at (mk b as sgs) q = some N ∧ i < N.size
          ∧ (level + q.length + 2).tmod 2 = 1 ∧ ¬ (N.size = 1 ∧ N.is_SA = false)) ↔
        (∃ q i N, q ≠ [] ∧ p = q ++ [i] ∧ node_at (mk b as sgs) q = some N ∧ i < N.size
          ∧ (level + q.length + 2).tmod 2 = 1 ∧ ¬ (N.size = 1 ∧ N.is_SA = false))
        ∨ (∃ q i N, q = [] ∧ p = q ++ [i] ∧ node_at (mk b as sgs) q = some N ∧ i < N.size
          ∧ (level + q.length + 2).tmod 2 = 1 ∧ ¬ (N.size = 1 ∧ N.is_SA = false)) := by
      constructor
      · rintro ⟨q, i, N, h⟩
        by_cases hq : q = []
        · exact Or.inr ⟨q, i, N, hq, h⟩
        · exact Or.inl ⟨q, i, N, hq, h⟩
      · rintro (⟨q, i, N, _, h⟩ | ⟨q, i, N, _, h⟩) <;> exact ⟨q, i, N, h⟩
    rw [split, ← deep, ← root, possible_erasures]
    have hsz : (mk b as sgs).size = as.length + sgs.length := rfl
    by_cases hl : (level + 2).tmod 2 = 1
    · rw [if_pos hl]
      by_cases hc : as.length + sgs.length = 1 ∧ b = false
      · rw [if_pos hc]
        constructor
        · exact Or.inl
        · rintro (h | ⟨_, _, h⟩)
          · exact h
          · exact absurd (hsz ▸ hc) h
      · rw [if_neg hc, List.append_assoc, List.mem_append, own]
        constructor
        · rintro (h | h)
          · exact Or.inl h
          · exact Or.inr ⟨h, hl, hsz ▸ hc⟩
        · rintro (h | ⟨h, _, _⟩)
          · exact Or.inl h
          · exact Or.inr h
    · rw [if_neg hl]
      constructor
      · exact Or.inl
      · rintro (h | ⟨_, h, _⟩)
        · exact h
        · exact absurd h hl


/-! ### The order of `std::string` and the model of `std::sort` -/

theorem strLt_irrefl : ∀ a : Str, strLt a a = false
  | [] => rfl
  | c :: a => by simp [strLt, strLt_irrefl a]

theorem strLt_total : ∀ a b : Str, strLt b a = false ∨ strLt a b = false
  | [], [] => Or.inl rfl
  | [], _ :: _ => Or.inl rfl
  | _ :: _, [] => Or.inr rfl
  | c :: a, d :: b => by
    rw [strLt, strLt]
    by_cases hcd : c.toNat < d.toNat
    · have : ¬ d.toNat < c.toNat := by omega
      simp [hcd, this]
    · by_cases hdc : d.toNat < c.toNat
      · simp [hcd, hdc]
      · simpa [hcd, hdc] using strLt_total a b

theorem strLt_trans_le : ∀ a b c : Str,
    strLt b a = false → strLt c b = false → strLt c a = false
  | [], _, [] => fun _ _ => rfl
  | [], _, _ :: _ => fun _ _ => rfl
  | _ :: _, [], _ => fun h _ => by simp [strLt] at h
  | _ :: _, _ :: _, [] => fun _ h => by simp [strLt] at h
  | x :: a, y :: b, z :: c => by
    intro h1 h2
    rw [strLt] at h1 h2 ⊢
    by_cases hyx : y.toNat < x.toNat
    · simp [hyx] at h1
    · by_cases hzy : z.toNat < y.toNat
      · simp [hzy] at h2
      · simp only [hyx, hzy, if_false] at h1 h2
        by_cases hxy : x.toNat < y.toNat
        · have h3 : ¬ z.toNat < x.toNat := by omega
          have h4 : x.toNat < z.toNat := by omega
          simp [h3, h4]
        · by_cases hyz : y.toNat < z.toNat
          · have h3 : ¬ z.toNat < x.toNat := by omega
            have h4 : x.toNat < z.toNat := by omega
            simp [h3, h4]
          · simp only [hxy, hyz, if_false] at h1 h2
            have h3 : ¬ z.toNat < x.toNat := by omega
            have h4 : ¬ x.toNat < z.toNat := by omega
            simp only [h3, h4, if_false]
            exact strLt_trans_le a b c h1 h2

theorem strLe_total : IsTotal Str strLe := ⟨strLt_total⟩

theorem strLe_trans : IsTrans Str strLe := ⟨strLt_trans_le⟩

theorem graphLe_total : IsTotal AEGraph graphLe := ⟨fun g h => strLt_total g.repr h.repr⟩

theorem graphLe_trans : IsTrans AEGraph graphLe :=
  ⟨fun a b c h1 h2 => strLt_trans_le a.repr b.repr c.repr h1 h2⟩

theorem sorted_sort_str (l : List Str) : (l.insertionSort strLe).Sorted strLe :=
  haveI := strLe_total
  haveI := strLe_trans
  List.sorted_insertionSort strLe l

theorem sorted_sort_graph (l : List AEGraph) : (l.insertionSort graphLe).Sorted graphLe :=
  haveI := graphLe_total
  haveI := graphLe_trans
  List.sorted_insertionSort graphLe l

theorem std_sort_strLt (l : List Str) : std_sort strLt l = l.insertionSort strLe := rfl

theorem std_sort_lt (l : List AEGraph) : std_sort lt l = l.insertionSort graphLe := rfl

theorem sortEach_eq (l : List AEGraph) : sortEach l = l.map sort := by
  induction l with
  | nil => rfl
  | cons g l ih => rw [sortEach, ih]; rfl

theorem sort_eq (g : AEGraph) :
    sort g = mk g.is_SA (g.atoms.insertionSort strLe)
      ((g.subgraphs.map sort).insertionSort graphLe) := by
  cases g with
  | mk b as sgs => rw [sort, sortEach_eq]; rfl

theorem parseFuel_succ (n : Nat) (s : Str) (g : AEGraph) :
    parseFuel (n + 1) s = some g ↔
      ∃ l r as sgs, s.head? = some l ∧ s.getLast? = some r
        ∧ ((l = '(' ∧ r = ')') ∨ (l = '[' ∧ r = ']'))
        ∧ parseElems (parseFuel n) (split_level ((s.drop 1).take (s.length - 2))) = some (as, sgs)
        ∧ g = sort (mk (l == '(') as sgs) := by
  rw [parseFuel]
  cases hh : s.head? with
  | none => simp
  | some l =>
    cases hl : s.getLast? with
    | none => simp
    | some r =>
      simp only []
      by_cases hc : (l = '(' ∧ r = ')') ∨ (l = '[' ∧ r = ']')
      · rw [if_pos hc]
        cases hp : parseElems (parseFuel n) (split_level ((s.drop 1).take (s.length - 2))) with
        | none => simp
        | some pr =>
          simp only [Option.some.injEq]
          constructor
          · intro h
            exact ⟨l, r, pr.1, pr.2, rfl, rfl, hc, rfl, h.symm⟩
          · rintro ⟨l1, r1, as, sgs, h1, h2, _, h4, h5⟩
            cases h1; cases h2; cases h4
            exact h5.symm
      · rw [if_neg hc]
        constructor
        · intro h; cases h
        · rintro ⟨l1, r1, as, sgs, h1, h2, h3, _, _⟩
          cases h1; cases h2
          exact absurd h3 hc

theorem parseElems_spec (rec : Str → Option AEGraph) : ∀ (v : List Str) (as : List Str)
    (sgs : List AEGraph), parseElems rec v = some (as, sgs) →
      as = v.filter (fun s => !decide (s.head? = some '['))
      ∧ List.Forall₂ (fun s sg => rec s = some sg)
          (v.filter (fun s => decide (s.head? = some '['))) sgs := by
  intro v
  induction v with
  | nil =>
    intro as sgs h
    simp only [parseElems, Option.some.injEq, Prod.mk.injEq] at h
    obtain ⟨rfl, rfl⟩ := h
    exact ⟨rfl, List.Forall₂.nil⟩
  | cons s v ih =>
    intro as sgs h
    rw [parseElems] at h
    by_cases hs : s.head? ≠ some '['
    · rw [if_pos hs] at h
      cases hp : parseElems rec v with
      | none => simp [hp] at h
      | some pr =>
        obtain ⟨pa, pg⟩ := pr
        simp only [hp, Option.map_some', Option.some.injEq, Prod.mk.injEq] at h
        obtain ⟨rfl, rfl⟩ := h
        obtain ⟨h1, h2⟩ := ih pa pg hp
        have hs' : ¬ s.head? = some '[' := hs
        simp [List.filter_cons, hs', ← h1, h2]
    · rw [if_neg hs] at h
      have hs' : s.head? = some '[' := by simpa using hs
      cases hr : rec s with
      | none => simp [hr] at h
      | some sg =>
        simp only [hr] at h
        cases hp : parseElems rec v with
        | none => simp [hp] at h
        | some pr =>
          obtain ⟨pa, pg⟩ := pr
          simp only [hp, Option.map_some', Option.some.injEq, Prod.mk.injEq] at h
          obtain ⟨rfl, rfl⟩ := h
          obtain ⟨h1, h2⟩ := ih pa pg hp
          simp only [List.filter_cons, hs', decide_True, if_true, Bool.not_true,
            Bool.false_eq_true, if_false]
          exact ⟨h1, List.Forall₂.cons hr h2⟩

theorem nested_cuts_mk (b : Bool) (as : List Str) (sgs : List AEGraph) :
    nested_cuts (mk b as sgs) ↔ ∀ sg ∈ sgs, sg.is_SA = false ∧ nested_cuts sg := by
  constructor
  · intro h sg hsg
    obtain ⟨k, hk⟩ := List.mem_iff_getElem?.1 hsg
    constructor
    · exact h [k] sg (by simp) (by simp [node_at, hk])
    · intro q n hq hn
      exact h (k :: q) n (by simp) (by simp [node_at, hk, hn])
  · intro h q n hq hn
    cases q with
    | nil => exact absurd rfl hq
    | cons k q =>
      rw [node_at] at hn
      simp only [subgraphs_mk] at hn
      cases hk : sgs[k]? with
      | none => simp [hk] at hn
      | some sg =>
        simp only [hk] at hn
        obtain ⟨h1, h2⟩ := h sg (List.getElem?_mem hk)
        cases q with
        | nil => simp [node_at] at hn; rw [← hn]; exact h1
        | cons j q => exact h2 (j :: q) n (by simp) hn

theorem sort_is_SA (g : AEGraph) : (sort g).is_SA = g.is_SA := by
  rw [sort_eq]; rfl

theorem sort_nested_cuts : ∀ g : AEGraph, nested_cuts g → nested_cuts (sort g) := by
  intro g
  induction g using AEGraph.induct with
  | h b as sgs ih =>
    intro h
    rw [sort_eq, nested_cuts_mk]
    rw [nested_cuts_mk] at h
    intro sg hsg
    rw [subgraphs_mk, List.mem_insertionSort, List.mem_map] at hsg
    obtain ⟨sg0, hsg0, rfl⟩ := hsg
    obtain ⟨h1, h2⟩ := h sg0 hsg0
    exact ⟨by rw [sort_is_SA, h1], ih sg0 hsg0 h2⟩

theorem forall₂_mem_right {α β : Type} {R : α → β → Prop} {l1 : List α} {l2 : List β}
    (h : List.Forall₂ R l1 l2) : ∀ y ∈ l2, ∃ x ∈ l1, R x y := by
  induction h with
  | nil => intro y hy; cases hy
  | cons hab _ ih =>
    intro y hy
    rcases List.mem_cons.1 hy with rfl | hy
    · exact ⟨_, List.mem_cons_self _ _, hab⟩
    · obtain ⟨x, hx, hr⟩ := ih y hy
      exact ⟨x, List.mem_cons_of_mem _ hx, hr⟩

/-- A graph built by the constructor is a sheet exactly when the text starts
with `(`, and all its nested nodes are cuts. -/
theorem parseFuel_kind : ∀ (n : Nat) (s : Str) (g : AEGraph), parseFuel n s = some g →
    g.is_SA = decide (s.head? = some '(') ∧ nested_cuts g := by
  intro n
  induction n with
  | zero => intro s g h; simp [parseFuel] at h
  | succ n ih =>
    intro s g h
    obtain ⟨l, r, as, sgs, hl, _, hc, hp, rfl⟩ := (parseFuel_succ n s g).1 h
    obtain ⟨_, hall⟩ := parseElems_spec _ _ _ _ hp
    constructor
    · rw [sort_is_SA, is_SA_mk, hl]
      by_cases h1 : l = '(' <;> simp [h1]
    · apply sort_nested_cuts
      rw [nested_cuts_mk]
      intro sg hsg
      obtain ⟨x, hx, hr⟩ := forall₂_mem_right hall sg hsg
      obtain ⟨h1, h2⟩ := ih x sg hr
      refine ⟨?_, h2⟩
      rw [h1]
      have hx2 := (List.mem_filter.1 hx).2
      simp only [decide_eq_true_eq] at hx2
      rw [hx2]; decide


/-! ### Erasures of a parsed sheet -/

theorem parse_kind (s : Str) (g : AEGraph) (h : parse s = some g) (hs : s.head? = some '(') :
    g.is_SA = true ∧ nested_cuts g := by
  obtain ⟨h1, h2⟩ := parseFuel_kind _ s g h
  exact ⟨by rw [h1, hs]; rfl, h2⟩

/-- C4 (amended): for a graph parsed from a sheet text, `possible_erasures(0)`
returns exactly the addresses of the elements of the nodes at an odd nesting
level (the root being level 0) that have at least two elements; the addresses
of the elements of the nodes at an even level, the root or a node with at least
two elements, are what `possible_erasures(-1)` returns. -/
theorem possible_erasures_char (s : Str) (g : AEGraph) (hg : parse s = some g)
    (hs : s.head? = some '(') (p : List Nat) :
    (p ∈ possible_erasures g 0 ↔
      ∃ q i N, p = q ++ [i] ∧ node_at g q = some N ∧ i < N.size
        ∧ q.length % 2 = 1 ∧ 2 ≤ N.size)
    ∧ (p ∈ possible_erasures g (-1) ↔
      ∃ q i N, p = q ++ [i] ∧ node_at g q = some N ∧ i < N.size
        ∧ q.length % 2 = 0 ∧ (q = [] ∨ 2 ≤ N.size)) := by
  obtain ⟨hsa, hcuts⟩ := parse_kind s g hg hs
  have l0 : ∀ n : Nat, ((0 : Int) + (n : Int) + 2).tmod 2 = 1 ↔ n % 2 = 1 := by
    intro n
    rw [Int.tmod_eq_emod (by omega) (by omega)]
    omega
  have l1 : ∀ n : Nat, ((-1 : Int) + (n : Int) + 2).tmod 2 = 1 ↔ n % 2 = 0 := by
    intro n
    rw [Int.tmod_eq_emod (by omega) (by omega)]
    omega
  constructor
  · rw [mem_possible_erasures]
    constructor
    · rintro ⟨q, i, N, hp, hN, hi, hl, hc⟩
      have hodd := (l0 q.length).1 hl
      have hq : q ≠ [] := by intro h; rw [h] at hodd; simp at hodd
      have hcut := hcuts q N hq hN
      exact ⟨q, i, N, hp, hN, hi, hodd, by
        by_contra h2
        exact hc ⟨by omega, hcut⟩⟩
    · rintro ⟨q, i, N, hp, hN, hi, hodd, h2⟩
      exact ⟨q, i, N, hp, hN, hi, (l0 q.length).2 hodd, fun h => by omega⟩
  · rw [mem_possible_erasures]
    constructor
    · rintro ⟨q, i, N, hp, hN, hi, hl, hc⟩
      refine ⟨q, i, N, hp, hN, hi, (l1 q.length).1 hl, ?_⟩
      by_cases hq : q = []
      · exact Or.inl hq
      · right
        have hcut := hcuts q N hq hN
        by_contra h2
        exact hc ⟨by omega, hcut⟩
    · rintro ⟨q, i, N, hp, hN, hi, hev, h2⟩
      refine ⟨q, i, N, hp, hN, hi, (l1 q.length).2 hev, ?_⟩
      rcases h2 with rfl | h2
      · simp only [node_at, Option.some.injEq] at hN
        subst hN
        intro h
        rw [hsa] at h
        exact absurd h.2 (by decide)
      · intro h; omega

/-- The witness of C4 (amended) on `([A], [A])`. -/
theorem possible_erasures_char_witness :
    parse "([A], [A])".toList
      = some (mk true [] [mk false ["A".toList] [], mk false ["A".toList] []])
    ∧ "([A], [A])".toList.head? = some '('
    ∧ possible_erasures (mk true [] [mk false ["A".toList] [], mk false ["A".toList] []]) (-1)
        = [[0], [1]]
    ∧ ([0] ∈ possible_erasures (mk true [] [mk false ["A".toList] [], mk false ["A".toList] []]) 0 ↔
      ∃ q i N, [0] = q ++ [i]
        ∧ node_at (mk true [] [mk false ["A".toList] [], mk false ["A".toList] []]) q = some N
        ∧ i < N.size ∧ q.length % 2 = 1 ∧ 2 ≤ N.size)
    ∧ ([0] ∈ possible_erasures (mk true [] [mk false ["A".toList] [], mk false ["A".toList] []])
        (-1) ↔
      ∃ q i N, [0] = q ++ [i]
        ∧ node_at (mk true [] [mk false ["A".toList] [], mk false ["A".toList] []]) q = some N
        ∧ i < N.size ∧ q.length % 2 = 0 ∧ (q = [] ∨ 2 ≤ N.size)) :=
  ⟨by decide, by decide, by decide,
    possible_erasures_char "([A], [A])".toList _ (by decide) (by decide) [0]⟩

/-- The counterexample to C4 as stated: in the graph of `([A], [A])` the paths
`[0]` and `[1]` address the two child cuts of the root, which is at level 0,
and `possible_erasures(0)` returns no path at all. -/
theorem possible_erasures_level0_counterexample :
    parse "([A], [A])".toList
      = some (mk true [] [mk false ["A".toList] [], mk false ["A".toList] []])
    ∧ possible_erasures (mk true [] [mk false ["A".toList] [], mk false ["A".toList] []]) 0 = []
    ∧ [0] ∉ possible_erasures (mk true [] [mk false ["A".toList] [], mk false ["A".toList] []]) 0
    ∧ [1] ∉ possible_erasures (mk true [] [mk false ["A".toList] [], mk false ["A".toList] []]) 0
    ∧ (∃ c, child (mk true [] [mk false ["A".toList] [], mk false ["A".toList] []]) 0
        = some (Elem.cut c))
    ∧ (∃ c, child (mk true [] [mk false ["A".toList] [], mk false ["A".toList] []]) 1
        = some (Elem.cut c)) :=
  ⟨by decide, by decide, by decide, by decide, ⟨_, rfl⟩, ⟨_, rfl⟩⟩


/-! ### `strip`, `split_first`, `split_level` -/

theorem dropWhile_of_head {p : Char → Bool} (l : Str) (h : ∀ c, l.head? = some c → p c = false) :
    l.dropWhile p = l := by
  cases l with
  | nil => rfl
  | cons c l => simp [List.dropWhile_cons, h c rfl]

theorem mem_dropWhile_of_not {p : Char → Bool} (c : Char) (hc : p c = false) :
    ∀ l : Str, c ∈ l → c ∈ l.dropWhile p := by
  intro l
  induction l with
  | nil => intro h; cases h
  | cons d l ih =>
    intro h
    rw [List.dropWhile_cons]
    by_cases hd : p d = true
    · rw [if_pos hd]
      rcases List.mem_cons.1 h with rfl | h
      · rw [hc] at hd; cases hd
      · exact ih h
    · rw [if_neg hd]; exact h

theorem strip_sublist (s : Str) : (strip s).Sublist s := by
  unfold strip
  have h1 : ((s.dropWhile isBlank).reverse.dropWhile isBlank).Sublist (s.dropWhile isBlank).reverse :=
    List.dropWhile_sublist _
  have h2 := List.reverse_sublist.2 h1
  rw [List.reverse_reverse] at h2
  exact h2.trans (List.dropWhile_sublist _)

theorem strip_length_le (s : Str) : (strip s).length ≤ s.length :=
  (strip_sublist s).length_le

theorem strip_subset (s : Str) (c : Char) (h : c ∈ strip s) : c ∈ s :=
  (strip_sublist s).subset h

theorem mem_strip (s : Str) (c : Char) (h : c ∈ s) (hc : isBlank c = false) : c ∈ strip s := by
  unfold strip
  rw [List.mem_reverse]
  apply mem_dropWhile_of_not c hc
  rw [List.mem_reverse]
  exact mem_dropWhile_of_not c hc s h

theorem strip_of_tight (s : Str) (h : Tight s) : strip s = s := by
  unfold strip
  rw [dropWhile_of_head s h.1, dropWhile_of_head s.reverse, List.reverse_reverse]
  intro c hc
  rw [List.head?_reverse] at hc
  exact h.2 c hc

theorem tight_strip (s : Str) : Tight (strip s) := by
  unfold strip
  set y := s.dropWhile isBlank with hy
  set z := y.reverse.dropWhile isBlank with hz
  have hzh : ∀ c, z.head? = some c → isBlank c = false := by
    intro c hc
    have := List.head?_dropWhile_not isBlank y.reverse
    rw [← hz, hc] at this
    exact this
  have hyh : ∀ c, y.head? = some c → isBlank c = false := by
    intro c hc
    have := List.head?_dropWhile_not isBlank s
    rw [← hy, hc] at this
    exact this
  constructor
  · intro c hc
    have hpre : z.reverse <+: y := by
      have : z <:+ y.reverse := List.dropWhile_suffix _
      have h2 := List.reverse_prefix.2 this
      rwa [List.reverse_reverse] at h2
    obtain ⟨t, ht⟩ := hpre
    apply hyh c
    rw [← ht, List.head?_append, hc]; rfl
  · intro c hc
    rw [List.getLast?_reverse] at hc
    exact hzh c hc

theorem strip_strip (s : Str) : strip (strip s) = strip s :=
  strip_of_tight _ (tight_strip s)

theorem strip_nil : strip [] = [] := rfl

theorem strip_blank_cons (c : Char) (s : Str) (h : isBlank c = true) :
    strip (c :: s) = strip s := by
  unfold strip
  rw [List.dropWhile_cons, if_pos h]

theorem split_first_loop_len (s : Str) : ∀ (pre : Str) (n : Int),
    (split_first_loop ',' pre n s).1.length ≤ pre.length + s.length
    ∧ (split_first_loop ',' pre n s).2.length ≤ s.length - 1 := by
  induction s with
  | nil =>
    intro pre n
    simp only [split_first_loop, List.length_nil, Nat.add_zero, Nat.le_refl, and_true]
    exact strip_length_le pre
  | cons c rest ih =>
    intro pre n
    rw [split_first_loop]
    by_cases h : c = ',' ∧ n = 0
    · rw [if_pos h]
      exact ⟨Nat.le_trans (strip_length_le pre) (Nat.le_add_right _ _), by
        simpa using strip_length_le rest⟩
    · rw [if_neg h]
      obtain ⟨h1, h2⟩ := ih (pre ++ [c])
        (if c = ']' then (if c = '[' then n + 1 else n) - 1 else (if c = '[' then n + 1 else n))
      constructor
      · simp only [List.length_append, List.length_cons, List.length_nil] at h1 ⊢
        omega
      · simp only [List.length_cons] at h2 ⊢
        omega

theorem split_first_len (s : Str) :
    (split_first s).1.length ≤ s.length ∧ (split_first s).2.length ≤ s.length - 1 := by
  have := split_first_loop_len s [] 0
  simpa [split_first] using this

theorem split_level_loop_len (fuel : Nat) : ∀ (s : Str),
    ∀ e ∈ split_level_loop ',' fuel s, e.length ≤ s.length := by
  induction fuel with
  | zero => intro s e h; simp [split_level_loop] at h
  | succ fuel ih =>
    intro s e h
    rw [split_level_loop] at h
    obtain ⟨h1, h2⟩ := split_first_len s
    by_cases hp : (split_first s ',').2 = []
    · simp only [hp, if_true, List.mem_singleton] at h
      rw [h]; exact h1
    · simp only [hp, if_false, List.mem_cons] at h
      rcases h with rfl | h
      · exact h1
      · have := ih _ e h
        omega

theorem split_level_len (s : Str) : ∀ e ∈ split_level s, e.length ≤ s.length :=
  split_level_loop_len _ s

/-- More iterations than the length of the text never change the result of
the loop of `split_level`. -/
theorem split_level_loop_fuel (fuel : Nat) : ∀ (s : Str), s.length < fuel →
    split_level_loop ',' (fuel + 1) s = split_level_loop ',' fuel s := by
  induction fuel with
  | zero => intro s h; omega
  | succ fuel ih =>
    intro s h
    rw [split_level_loop]
    conv_rhs => rw [split_level_loop]
    by_cases hp : (split_first s ',').2 = []
    · simp only [hp, if_true]
    · simp only [hp, if_false]
      have h2 := (split_first_len s).2
      have h3 : (split_first s ',').2.length ≠ 0 := fun h0 => hp (List.length_eq_zero.1 h0)
      rw [ih _ (by omega)]

theorem split_level_ne_nil (s : Str) : split_level s ≠ [] := by
  unfold split_level
  rw [split_level_loop]
  by_cases hp : (split_first s ',').2 = [] <;> simp [hp]

theorem split_first_loop_tight (s : Str) : ∀ (pre : Str) (n : Int),
    Tight (split_first_loop ',' pre n s).1 := by
  induction s with
  | nil => intro pre n; exact tight_strip pre
  | cons c rest ih =>
    intro pre n
    rw [split_first_loop]
    by_cases h : c = ',' ∧ n = 0
    · rw [if_pos h]; exact tight_strip pre
    · rw [if_neg h]; exact ih _ _

theorem split_level_loop_tight (fuel : Nat) : ∀ (s : Str),
    ∀ e ∈ split_level_loop ',' fuel s, Tight e := by
  induction fuel with
  | zero => intro s e h; simp [split_level_loop] at h
  | succ fuel ih =>
    intro s e h
    rw [split_level_loop] at h
    by_cases hp : (split_first s ',').2 = []
    · simp only [hp, if_true, List.mem_singleton] at h
      rw [h]; exact split_first_loop_tight s [] 0
    · simp only [hp, if_false, List.mem_cons] at h
      rcases h with rfl | h
      · exact split_first_loop_tight s [] 0
      · exact ih _ e h


/-! ### The bound on the recursion depth of the constructor, and rejected texts -/

theorem parseElems_congr (rec1 rec2 : Str → Option AEGraph) : ∀ (v : List Str),
    (∀ e ∈ v, rec1 e = rec2 e) → parseElems rec1 v = parseElems rec2 v := by
  intro v
  induction v with
  | nil => intro _; rfl
  | cons s v ih =>
    intro h
    rw [parseElems, parseElems, ih (fun e he => h e (List.mem_cons_of_mem _ he)),
      h s (List.mem_cons_self _ _)]

theorem parseElems_none (rec : Str → Option AEGraph) : ∀ (v : List Str) (e : Str),
    e ∈ v → e.head? = some '[' → rec e = none → parseElems rec v = none := by
  intro v
  induction v with
  | nil => intro e h; cases h
  | cons s v ih =>
    intro e he hh hr
    rw [parseElems]
    by_cases hs : s.head? ≠ some '['
    · rw [if_pos hs]
      rcases List.mem_cons.1 he with rfl | he
      · exact absurd hh hs
      · rw [ih e he hh hr]; rfl
    · rw [if_neg hs]
      rcases List.mem_cons.1 he with rfl | he
      · rw [hr]
      · cases rec s with
        | none => rfl
        | some sg => simp only []; rw [ih e he hh hr]; rfl

theorem inner_text_len (s : Str) : (inner_text s).length ≤ s.length - 2 := by
  unfold inner_text
  rw [List.length_take]
  exact Nat.min_le_left _ _

/-- A recursion bound of at least the length of the text gives the same
result as any larger one. -/
theorem parseFuel_stable : ∀ (n : Nat) (s : Str), s.length ≤ n →
    parseFuel (n + 1) s = parseFuel n s := by
  intro n
  induction n with
  | zero =>
    intro s h
    have hs : s = [] := List.length_eq_zero.1 (by omega)
    subst hs
    rfl
  | succ n ih =>
    intro s h
    apply Option.ext
    intro g
    simp only [Option.mem_def]
    rw [parseFuel_succ, parseFuel_succ]
    have e : parseElems (parseFuel (n + 1)) (split_level ((s.drop 1).take (s.length - 2)))
        = parseElems (parseFuel n) (split_level ((s.drop 1).take (s.length - 2))) := by
      apply parseElems_congr
      intro e he
      apply ih
      have h1 := split_level_len _ e he
      have h2 := inner_text_len s
      unfold inner_text at h2
      omega
    rw [e]

theorem parseFuel_of_le (s : Str) : ∀ (k : Nat), parseFuel (s.length + k) s = parse s := by
  intro k
  induction k with
  | zero => rfl
  | succ k ih =>
    rw [← ih]
    exact parseFuel_stable (s.length + k) s (by omega)

theorem parseFuel_eq_parse (n : Nat) (s : Str) (h : s.length ≤ n) : parseFuel n s = parse s := by
  have := parseFuel_of_le s (n - s.length)
  rwa [Nat.add_sub_cancel' h] at this

theorem parse_some_iff (s : Str) (g : AEGraph) :
    parse s = some g ↔
      ∃ l r as sgs, s.head? = some l ∧ s.getLast? = some r
        ∧ ((l = '(' ∧ r = ')') ∨ (l = '[' ∧ r = ']'))
        ∧ parseElems parse (split_level (inner_text s)) = some (as, sgs)
        ∧ g = sort (mk (l == '(') as sgs) := by
  have e : parseElems (parseFuel s.length) (split_level (inner_text s))
      = parseElems parse (split_level (inner_text s)) := by
    apply parseElems_congr
    intro e he
    apply parseFuel_eq_parse
    have h1 := split_level_len _ e he
    have h2 := inner_text_len s
    omega
  rw [← parseFuel_eq_parse (s.length + 1) s (by omega), parseFuel_succ, ← e]
  rfl

/-- C8 (amended): a text whose first and last characters are not a matching
pair of brackets is rejected, and so is a text one of whose elements starts
with `[` and is rejected itself. -/
theorem malformed_rejected (s : Str) :
    (¬ delimited s → parse s = none)
    ∧ (∀ e ∈ split_level (inner_text s), e.head? = some '[' → parse e = none →
        parse s = none) := by
  constructor
  · intro h
    cases hp : parse s with
    | none => rfl
    | some g =>
      obtain ⟨l, r, _, _, hl, hr, hc, _, _⟩ := (parse_some_iff s g).1 hp
      exfalso
      apply h
      rcases hc with ⟨rfl, rfl⟩ | ⟨rfl, rfl⟩
      · exact Or.inl ⟨hl, hr⟩
      · exact Or.inr ⟨hl, hr⟩
  · intro e he hh hn
    cases hp : parse s with
    | none => rfl
    | some g =>
      obtain ⟨l, r, as, sgs, _, _, _, hpe, _⟩ := (parse_some_iff s g).1 hp
      rw [parseElems_none parse _ e he hh hn] at hpe
      cases hpe

/-- The witness of C8 (amended): `(A]` has no matching outer pair, and the
element `[A` of `([A)` is rejected. -/
theorem malformed_rejected_witness :
    ¬ delimited "(A]".toList ∧ parse "(A]".toList = none
    ∧ "[A".toList ∈ split_level (inner_text "([A)".toList)
    ∧ parse "[A".toList = none ∧ parse "([A)".toList = none :=
  ⟨by simp [delimited], (malformed_rejected "(A]".toList).1 (by simp [delimited]),
    by decide, by decide,
    (malformed_rejected "([A)".toList).2 "[A".toList (by decide) (by decide) (by decide)⟩

/-- The counterexample to C8 as stated: the text `(A])` has a `]` without a
matching `[`, and the constructor accepts it, as a sheet with the atom `A]`. -/
theorem unbalanced_accepted_counterexample :
    parse "(A])".toList = some (mk true ["A]".toList] []) := by
  decide


/-! ### `contains` and `get_paths_to` -/

theorem containsIn_iff (sgs : List AEGraph) (other : Str) :
    containsIn sgs other = true ↔ ∃ sg ∈ sgs, contains sg other = true := by
  induction sgs with
  | nil => simp [containsIn]
  | cons sg sgs ih =>
    rw [containsIn]
    by_cases h : contains sg other = true
    · simp [h]
    · simp [h, ih]

/-- An atom of a node of `g` is found by `contains`. -/
theorem contains_of_node (q : List Nat) : ∀ (g N : AEGraph) (a : Str),
    node_at g q = some N → a ∈ N.atoms → contains g a = true := by
  induction q with
  | nil =>
    intro g N a h ha
    simp only [node_at, Option.some.injEq] at h
    subst h
    cases g with
    | mk b as sgs => simp only [atoms_mk] at ha; simp [contains, ha]
  | cons k q ih =>
    intro g N a h ha
    rw [node_at] at h
    cases hk : g.subgraphs[k]? with
    | none => simp [hk] at h
    | some sg =>
      simp only [hk] at h
      have h1 := ih sg N a h ha
      cases g with
      | mk b as sgs =>
        rw [contains]
        by_cases h2 : a ∈ as
        · simp [h2]
        · rw [if_neg h2, containsIn_iff]
          exact ⟨sg, List.getElem?_mem hk, h1⟩

theorem mem_atomPaths (other : Str) (big : Bool) (ns : Nat) (as : List Str) :
    ∀ (i : Nat) (p : List Nat), p ∈ atomPaths other big ns i as ↔
      ∃ k, as[k]? = some other ∧ big = true ∧ p = [i + k + ns] := by
  induction as with
  | nil => intro i p; simp [atomPaths]
  | cons a as ih =>
    intro i p
    rw [atomPaths, List.mem_append, ih (i + 1) p]
    constructor
    · rintro (h | ⟨k, hk, hb, rfl⟩)
      · split at h
        · rename_i hc
          simp only [List.mem_singleton] at h
          exact ⟨0, by simp [hc.1], hc.2, by simpa using h⟩
        · cases h
      · exact ⟨k + 1, by simpa using hk, hb, by congr 1; omega⟩
    · rintro ⟨k, hk, hb, rfl⟩
      cases k with
      | zero =>
        simp only [List.getElem?_cons_zero, Option.some.injEq] at hk
        left
        rw [if_pos ⟨hk, hb⟩]
        simp
      | succ k =>
        right
        exact ⟨k, by simpa using hk, hb, by congr 1; omega⟩

theorem mem_pathsIn (other : Str) (sgs : List AEGraph) : ∀ (i : Nat) (p : List Nat),
    p ∈ pathsIn sgs i other ↔ ∃ k sg p1, sgs[k]? = some sg ∧ contains sg other = true
      ∧ p1 ∈ get_paths_to sg other ∧ p = (i + k) :: p1 := by
  induction sgs with
  | nil => intro i p; simp [pathsIn]
  | cons sg sgs ih =>
    intro i p
    rw [pathsIn, List.mem_append, ih (i + 1) p]
    constructor
    · rintro (h | ⟨k, sg1, p1, hk, hc, hp1, rfl⟩)
      · split at h
        · rename_i hc
          obtain ⟨p1, hp1, rfl⟩ := List.mem_map.1 h
          exact ⟨0, sg, p1, List.getElem?_cons_zero, hc, hp1, rfl⟩
        · cases h
      · exact ⟨k + 1, sg1, p1, by simpa using hk, hc, hp1, by congr 1; omega⟩
    · rintro ⟨k, sg1, p1, hk, hc, hp1, rfl⟩
      cases k with
      | zero =>
        simp only [List.getElem?_cons_zero, Option.some.injEq] at hk
        subst hk
        left
        rw [if_pos hc]
        exact List.mem_map.2 ⟨p1, hp1, rfl⟩
      | succ k =>
        right
        exact ⟨k, sg1, p1, by simpa using hk, hc, hp1, by congr 1; omega⟩

/-- The paths returned by `get_paths_to(const std::string)`: the addresses of
the occurrences of the atom in nodes of more than one element. -/
theorem mem_get_paths_to (a : Str) : ∀ (g : AEGraph) (p : List Nat),
    p ∈ get_paths_to g a ↔
      ∃ q j N, p = q ++ [j + N.num_subgraphs] ∧ node_at g q = some N
        ∧ N.atoms[j]? = some a ∧ 1 < N.size := by
  intro g
  induction g using AEGraph.induct with
  | h b as sgs ih =>
    intro p
    rw [get_paths_to, List.mem_append, mem_atomPaths, mem_pathsIn]
    constructor
    · rintro (⟨k, hk, hb, rfl⟩ | ⟨k, sg, p1, hk, hc, hp1, rfl⟩)
      · refine ⟨[], k, mk b as sgs, by simp [num_subgraphs], rfl, hk, ?_⟩
        simpa [size, num_atoms, num_subgraphs] using hb
      · obtain ⟨q, j, N, rfl, hN, hj, hs⟩ := (ih sg (List.getElem?_mem hk) p1).1 hp1
        exact ⟨k :: q, j, N, by simp, by simp [node_at, hk, hN], hj, hs⟩
    · rintro ⟨q, j, N, rfl, hN, hj, hs⟩
      cases q with
      | nil =>
        simp only [node_at, Option.some.injEq] at hN
        subst hN
        left
        refine ⟨j, hj, ?_, by simp [num_subgraphs]⟩
        simpa [size, num_atoms, num_subgraphs] using hs
      | cons k q =>
        right
        rw [node_at] at hN
        simp only [subgraphs_mk] at hN
        cases hk : sgs[k]? with
        | none => simp [hk] at hN
        | some sg =>
          simp only [hk] at hN
          refine ⟨k, sg, q ++ [j + N.num_subgraphs], hk, ?_, ?_, by simp⟩
          · exact contains_of_node q sg N a hN (List.getElem?_mem hj)
          · exact (ih sg (List.getElem?_mem hk) _).2 ⟨q, j, N, rfl, hN, hj, hs⟩

theorem mem_graphPathsIn (other : AEGraph) (big : Bool) (sgs : List AEGraph) :
    ∀ (i : Nat) (p : List Nat), p ∈ graphPathsIn big sgs i other ↔
      ∃ k sg, sgs[k]? = some sg ∧
        (((eqv sg other = true ∧ big = true) ∧ p = [i + k])
          ∨ (¬ (eqv sg other = true ∧ big = true)
              ∧ ∃ p1, p1 ∈ get_paths_to_graph sg other ∧ p = (i + k) :: p1)) := by
  induction sgs with
  | nil => intro i p; simp [graphPathsIn]
  | cons sg sgs ih =>
    intro i p
    rw [graphPathsIn, List.mem_append, ih (i + 1) p]
    constructor
    · rintro (h | ⟨k, sg1, hk, h⟩)
      · refine ⟨0, sg, List.getElem?_cons_zero, ?_⟩
        split at h
        · rename_i hc
          exact Or.inl ⟨hc, by simpa using h⟩
        · rename_i hc
          obtain ⟨p1, hp1, rfl⟩ := List.mem_map.1 h
          exact Or.inr ⟨hc, p1, hp1, rfl⟩
      · refine ⟨k + 1, sg1, by simpa using hk, ?_⟩
        have e : i + (k + 1) = i + 1 + k := by omega
        rw [e]; exact h
    · rintro ⟨k, sg1, hk, h⟩
      cases k with
      | zero =>
        simp only [List.getElem?_cons_zero, Option.some.injEq] at hk
        subst hk
        left
        rcases h with ⟨hc, rfl⟩ | ⟨hc, p1, hp1, rfl⟩
        · rw [if_pos hc]; simp
        · rw [if_neg hc]; exact List.mem_map.2 ⟨p1, hp1, rfl⟩
      | succ k =>
        right
        refine ⟨k, sg1, by simpa using hk, ?_⟩
        have e : i + (k + 1) = i + 1 + k := by omega
        rw [← e]; exact h

theorem eqv_iff (g h : AEGraph) : eqv g h = true ↔ repr g = repr h := by
  simp [eqv]

/-- Every path returned by `get_paths_to(const AEGraph&)` addresses a cut with
the serialization of the argument, inside a node of more than one element. -/
theorem get_paths_to_graph_sound (other : AEGraph) : ∀ (g : AEGraph) (p : List Nat),
    p ∈ get_paths_to_graph g other →
      ∃ q j N c, p = q ++ [j] ∧ node_at g q = some N ∧ N.subgraphs[j]? = some c
        ∧ repr c = repr other ∧ 1 < N.size := by
  intro g
  induction g using AEGraph.induct with
  | h b as sgs ih =>
    intro p hp
    rw [get_paths_to_graph, mem_graphPathsIn] at hp
    obtain ⟨k, sg, hk, h⟩ := hp
    rcases h with ⟨⟨he, hb⟩, rfl⟩ | ⟨_, p1, hp1, rfl⟩
    · refine ⟨[], k, mk b as sgs, sg, by simp, rfl, hk, (eqv_iff _ _).1 he, ?_⟩
      simpa [size, num_atoms, num_subgraphs] using hb
    · obtain ⟨q, j, N, c, rfl, hN, hj, hc, hs⟩ := ih sg (List.getElem?_mem hk) p1 hp1
      exact ⟨k :: q, j, N, c, by simp, by simp [node_at, hk, hN], hj, hc, hs⟩


/-! ### The scan that removes the designated original, and the final deduplication -/

theorem scan_single_snd (r : List (List Nat)) : ∀ (pos : Nat) (st : Nat × Nat),
    (scan_single pos st r).2 = st.2 + (singles r).length := by
  induction r with
  | nil => intro pos st; rfl
  | cons v r ih =>
    intro pos st
    rw [scan_single, ih]
    by_cases hv : v.length = 1
    · simp [singles, hv, List.filter_cons]; omega
    · simp [singles, hv, List.filter_cons]

theorem scan_single_none (r : List (List Nat)) : ∀ (pos : Nat) (st : Nat × Nat),
    singles r = [] → scan_single pos st r = st := by
  induction r with
  | nil => intro pos st _; rfl
  | cons v r ih =>
    intro pos st h
    rw [scan_single]
    by_cases hv : v.length = 1
    · simp [singles, hv, List.filter_cons] at h
    · have h2 : singles r = [] := by simpa [singles, hv, List.filter_cons] using h
      rw [if_neg hv, ih _ _ h2]

theorem filter_not_single_of_none (r : List (List Nat)) (h : singles r = []) :
    r.filter (fun v => !decide (v.length = 1)) = r := by
  rw [List.filter_eq_self]
  intro v hv
  by_contra hc
  have : v ∈ singles r := List.mem_filter.2 ⟨hv, by simpa using hc⟩
  rw [h] at this
  cases this

theorem scan_single_one (r : List (List Nat)) : ∀ (pos : Nat) (st : Nat × Nat),
    (singles r).length = 1 →
      pos ≤ (scan_single pos st r).1
      ∧ r.eraseIdx ((scan_single pos st r).1 - pos) = r.filter (fun v => !decide (v.length = 1)) := by
  induction r with
  | nil => intro pos st h; simp [singles] at h
  | cons v r ih =>
    intro pos st h
    rw [scan_single]
    by_cases hv : v.length = 1
    · have h2 : singles r = [] := by
        have : (singles r).length = 0 := by
          simpa [singles, hv, List.filter_cons] using h
        exact List.length_eq_zero.1 this
      rw [if_pos hv, scan_single_none r _ _ h2]
      simp [hv, List.filter_cons, filter_not_single_of_none r h2]
    · have h2 : (singles r).length = 1 := by
        simpa [singles, hv, List.filter_cons] using h
      rw [if_neg hv]
      obtain ⟨h3, h4⟩ := ih (pos + 1) st h2
      refine ⟨by omega, ?_⟩
      have e : (scan_single (pos + 1) st r).1 - pos = ((scan_single (pos + 1) st r).1 - (pos + 1)) + 1 := by
        omega
      rw [e, List.eraseIdx_cons_succ, h4]
      simp [hv, List.filter_cons]

theorem drop_single_eq (r : List (List Nat)) :
    drop_single r = if (singles r).length = 1 then r.filter (fun v => !decide (v.length = 1)) else r := by
  unfold drop_single
  simp only [scan_single_snd, Nat.zero_add]
  by_cases h : (singles r).length = 1
  · rw [if_pos h, if_pos h]
    have := (scan_single_one r 0 (0, 0) h).2
    simpa using this
  · rw [if_neg h, if_neg h]

theorem mem_drop_single (r : List (List Nat)) (p : List Nat) (h : p ∈ drop_single r) :
    p ∈ r ∧ (p.length = 1 → 2 ≤ (singles r).length) := by
  rw [drop_single_eq] at h
  by_cases hs : (singles r).length = 1
  · rw [if_pos hs] at h
    obtain ⟨h1, h2⟩ := List.mem_filter.1 h
    exact ⟨h1, fun hl => absurd hl (by simpa using h2)⟩
  · rw [if_neg hs] at h
    refine ⟨h, fun hl => ?_⟩
    have : p ∈ singles r := List.mem_filter.2 ⟨h, by simpa using hl⟩
    have h3 : (singles r).length ≠ 0 := by
      intro h0
      rw [List.length_eq_zero.1 h0] at this
      cases this
    omega

theorem drop_single_keeps (r : List (List Nat)) (p : List Nat) (h : p ∈ r) (hl : p.length ≠ 1) :
    p ∈ drop_single r := by
  rw [drop_single_eq]
  by_cases hs : (singles r).length = 1
  · rw [if_pos hs]; exact List.mem_filter.2 ⟨h, by simpa using hl⟩
  · rw [if_neg hs]; exact h

theorem drop_single_removes (r : List (List Nat)) (p : List Nat) (hs : (singles r).length = 1)
    (h : p ∈ drop_single r) : p.length ≠ 1 := by
  rw [drop_single_eq, if_pos hs] at h
  simpa using (List.mem_filter.1 h).2

theorem mem_unique_loop (n : Nat) : ∀ (pd : List (List Nat)) (p : List Nat), pd.length ≤ n →
    (p ∈ unique_loop n pd ↔ p ∈ pd) := by
  induction n with
  | zero => intro pd p _; rfl
  | succ n ih =>
    intro pd p h
    cases pd with
    | nil => rfl
    | cons v pd =>
      rw [unique_loop, List.mem_cons, List.mem_cons, ih]
      · rw [List.mem_filter]
        constructor
        · rintro (h1 | ⟨h1, _⟩)
          · exact Or.inl h1
          · exact Or.inr h1
        · rintro (h1 | h1)
          · exact Or.inl h1
          · by_cases e : p = v
            · exact Or.inl e
            · exact Or.inr ⟨h1, by simpa using e⟩
      · have := List.length_filter_le (fun w => decide (w ≠ v)) pd
        simp only [List.length_cons] at h
        omega

/-- More iterations than the length of the list never change the result of
the deduplication loop. -/
theorem unique_loop_fuel (n : Nat) : ∀ (pd : List (List Nat)), pd.length ≤ n →
    unique_loop (n + 1) pd = unique_loop n pd := by
  induction n with
  | zero =>
    intro pd h
    have : pd = [] := List.length_eq_zero.1 (by omega)
    subst this
    rfl
  | succ n ih =>
    intro pd h
    cases pd with
    | nil => rfl
    | cons v pd =>
      rw [unique_loop, unique_loop, ih]
      have := List.length_filter_le (fun w => decide (w ≠ v)) pd
      simp only [List.length_cons] at h
      omega

theorem mem_unique (pd : List (List Nat)) (p : List Nat) : p ∈ unique pd ↔ p ∈ pd :=
  mem_unique_loop _ pd p (Nat.le_refl _)

theorem two_of_countP {α : Type} (P : α → Bool) (l : List α) : 2 ≤ l.countP P →
    ∀ j : Nat, ∃ j2 x, j2 ≠ j ∧ l[j2]? = some x ∧ P x = true := by
  induction l with
  | nil => intro h; simp at h
  | cons x l ih =>
    intro h j
    by_cases hx : P x = true
    · rw [List.countP_cons_of_pos _ _ hx] at h
      have h1 : 0 < l.countP P := by omega
      obtain ⟨y, hy, hPy⟩ := List.countP_pos_iff.1 h1
      obtain ⟨m, hm⟩ := List.mem_iff_getElem?.1 hy
      cases j with
      | zero => exact ⟨m + 1, y, by omega, by simpa using hm, hPy⟩
      | succ j => exact ⟨0, x, by omega, List.getElem?_cons_zero, hx⟩
    · rw [List.countP_cons_of_neg _ _ hx] at h
      cases j with
      | zero =>
        obtain ⟨j2, y, _, h2, h3⟩ := ih h 0
        exact ⟨j2 + 1, y, by omega, by simpa using h2, h3⟩
      | succ j =>
        obtain ⟨j2, y, h1, h2, h3⟩ := ih h j
        exact ⟨j2 + 1, y, by omega, by simpa using h2, h3⟩


/-! ### Elements addressed by paths -/

theorem elem_at_snoc (g : AEGraph) (q : List Nat) (i : Nat) :
    elem_at g (q ++ [i]) = (node_at g q).bind (fun N => child N i) := by
  unfold elem_at
  have h1 : (q ++ [i]).getLast? = some i := by simp
  rw [h1, List.dropLast_concat]
  cases node_at g q <;> rfl

theorem elem_at_append (g N : AEGraph) (q : List Nat) (i : Nat) (h : node_at g q = some N) :
    elem_at g (q ++ [i]) = child N i := by
  rw [elem_at_snoc, h]; rfl

theorem elem_at_single (g : AEGraph) (i : Nat) : elem_at g [i] = child g i :=
  elem_at_append g g [] i rfl

theorem elem_at_ne_nil (g : AEGraph) (p : List Nat) (e : Elem) (h : elem_at g p = some e) :
    p ≠ [] := by
  intro hp
  rw [hp] at h
  simp [elem_at] at h

theorem elem_at_cons (g sg : AEGraph) (k : Nat) (p : List Nat) (hk : g.subgraphs[k]? = some sg)
    (hp : p ≠ []) : elem_at g (k :: p) = elem_at sg p := by
  obtain ⟨q, i, rfl⟩ := path_split p hp
  have e : k :: (q ++ [i]) = (k :: q) ++ [i] := rfl
  have hn : node_at g (k :: q) = node_at sg q := by simp [node_at, hk]
  rw [e, elem_at_snoc, elem_at_snoc, hn]

theorem child_cut (N c : AEGraph) (j : Nat) (h : N.subgraphs[j]? = some c) :
    child N j = some (Elem.cut c) := by
  have hlt : j < N.subgraphs.length := (List.getElem?_eq_some.1 h).1
  simp [child, num_subgraphs, hlt, h]

theorem child_atom (N : AEGraph) (a : Str) (j : Nat) (h : N.atoms[j]? = some a) :
    child N (j + N.num_subgraphs) = some (Elem.atom a) := by
  simp [child, h]

/-! ### Paths of length one among the paths to an atom or to a cut -/

theorem singles_append (r1 r2 : List (List Nat)) : singles (r1 ++ r2) = singles r1 ++ singles r2 :=
  List.filter_append _ _

theorem singles_eq_nil (r : List (List Nat)) (h : ∀ p ∈ r, p.length ≠ 1) : singles r = [] := by
  rw [singles, List.filter_eq_nil_iff]
  intro p hp
  simpa using h p hp

theorem singles_atomPaths (a : Str) (big : Bool) (ns : Nat) (as : List Str) : ∀ i : Nat,
    (singles (atomPaths a big ns i as)).length
      = if big = true then as.countP (fun x => decide (x = a)) else 0 := by
  induction as with
  | nil => intro i; simp [atomPaths, singles]
  | cons x as ih =>
    intro i
    rw [atomPaths, singles_append, List.length_append, ih (i + 1)]
    by_cases hb : big = true
    · by_cases hx : x = a
      · simp [hb, hx, singles]; omega
      · simp [hb, hx, singles]
    · simp [hb, singles]

theorem singles_pathsIn (a : Str) (sgs : List AEGraph) (i : Nat) :
    singles (pathsIn sgs i a) = [] := by
  apply singles_eq_nil
  intro p hp
  obtain ⟨k, sg, p1, _, _, hp1, rfl⟩ := (mem_pathsIn a sgs i p).1 hp
  obtain ⟨q, j, N, rfl, _⟩ := (mem_get_paths_to a sg p1).1 hp1
  simp

theorem singles_get_paths_to (a : Str) (g : AEGraph) :
    (singles (get_paths_to g a)).length
      = if 1 < g.size then g.atoms.countP (fun x => decide (x = a)) else 0 := by
  cases g with
  | mk b as sgs =>
    rw [get_paths_to, singles_append, singles_pathsIn, List.append_nil, singles_atomPaths]
    simp [size, num_atoms, num_subgraphs]

theorem singles_graphPathsIn (other : AEGraph) (big : Bool) (sgs : List AEGraph) : ∀ i : Nat,
    (singles (graphPathsIn big sgs i other)).length
      = if big = true then sgs.countP (fun sg => eqv sg other) else 0 := by
  induction sgs with
  | nil => intro i; simp [graphPathsIn, singles]
  | cons sg sgs ih =>
    intro i
    rw [graphPathsIn, singles_append, List.length_append, ih (i + 1)]
    have deep : singles ((get_paths_to_graph sg other).map (fun v => i :: v)) = [] := by
      apply singles_eq_nil
      intro p hp
      obtain ⟨p1, hp1, rfl⟩ := List.mem_map.1 hp
      obtain ⟨q, j, N, c, rfl, _⟩ := get_paths_to_graph_sound other sg p1 hp1
      simp
    by_cases hb : big = true
    · by_cases hx : eqv sg other = true
      · simp [hb, hx, singles]; omega
      · simp [hb, hx, deep]
    · simp [hb, deep]

theorem singles_get_paths_to_graph (other g : AEGraph) :
    (singles (get_paths_to_graph g other)).length
      = if 1 < g.size then g.subgraphs.countP (fun sg => eqv sg other) else 0 := by
  cases g with
  | mk b as sgs =>
    rw [get_paths_to_graph, singles_graphPathsIn]
    simp [size, num_atoms, num_subgraphs]

/-! ### Deiterations -/

theorem mem_deiterationsIn (self : AEGraph) (sgs : List AEGraph) : ∀ (i : Nat) (p : List Nat),
    p ∈ deiterationsIn self sgs i ↔ ∃ k sg, sgs[k]? = some sg ∧
      (p ∈ drop_single (get_paths_to_graph self sg)
        ∨ ∃ p1, p1 ∈ possible_deiterations sg ∧ p = (i + k) :: p1) := by
  induction sgs with
  | nil => intro i p; simp [deiterationsIn]
  | cons sg sgs ih =>
    intro i p
    rw [deiterationsIn, List.mem_append, List.mem_append, ih (i + 1) p]
    constructor
    · rintro ((h | h) | ⟨k, sg1, hk, h⟩)
      · exact ⟨0, sg, List.getElem?_cons_zero, Or.inl h⟩
      · obtain ⟨p1, hp1, rfl⟩ := List.mem_map.1 h
        exact ⟨0, sg, List.getElem?_cons_zero, Or.inr ⟨p1, hp1, rfl⟩⟩
      · refine ⟨k + 1, sg1, by simpa using hk, ?_⟩
        have e : i + (k + 1) = i + 1 + k := by omega
        rw [e]; exact h
    · rintro ⟨k, sg1, hk, h⟩
      cases k with
      | zero =>
        simp only [List.getElem?_cons_zero, Option.some.injEq] at hk
        subst hk
        rcases h with h | ⟨p1, hp1, rfl⟩
        · exact Or.inl (Or.inl h)
        · exact Or.inl (Or.inr (List.mem_map.2 ⟨p1, hp1, rfl⟩))
      | succ k =>
        refine Or.inr ⟨k, sg1, by simpa using hk, ?_⟩
        have e : i + (k + 1) = i + 1 + k := by omega
        rw [← e]; exact h

theorem mem_possible_deiterations (g : AEGraph) (p : List Nat) :
    p ∈ possible_deiterations g ↔
      (∃ k sg, g.subgraphs[k]? = some sg ∧
        (p ∈ drop_single (get_paths_to_graph g sg)
          ∨ ∃ p1, p1 ∈ possible_deiterations sg ∧ p = k :: p1))
      ∨ ∃ a ∈ g.atoms, p ∈ drop_single (get_paths_to g a) := by
  cases g with
  | mk b as sgs =>
    rw [possible_deiterations, mem_unique, List.mem_append, mem_deiterationsIn, List.mem_flatMap]
    simp only [Nat.zero_add, subgraphs_mk, atoms_mk]


/-! ### Deiteration targets have a counterpart -/

/-- Every path returned by `possible_deiterations` addresses an element that
has a structurally identical counterpart at another address, in the same node
or in a node above it. -/
theorem deiteration_partner : ∀ (g : AEGraph) (p : List Nat), p ∈ possible_deiterations g →
    ∃ e, elem_at g p = some e ∧ ∃ q e1, q ≠ p ∧ elem_at g q = some e1 ∧ Elem.same e e1
      ∧ q.dropLast <+: p.dropLast := by
  intro g
  induction g using AEGraph.induct with
  | h b as sgs ih =>
    intro p hp
    rcases (mem_possible_deiterations _ p).1 hp with ⟨k, sg, hk, h | ⟨p1, hp1, rfl⟩⟩ | ⟨a, ha, h⟩
    · -- a cut with the serialization of the subgraph `k`
      obtain ⟨hr, hsing⟩ := mem_drop_single _ p h
      obtain ⟨q0, j, N, c, rfl, hN, hj, hc, _⟩ := get_paths_to_graph_sound sg _ p hr
      refine ⟨Elem.cut c, by rw [elem_at_append _ N q0 j hN, child_cut N c j hj], ?_⟩
      by_cases hl : (q0 ++ [j]).length = 1
      · have hq0 : q0 = [] := by simpa using hl
        subst hq0
        simp only [node_at, Option.some.injEq] at hN
        subst hN
        have h2 := hsing hl
        rw [singles_get_paths_to_graph] at h2
        have h3 : 2 ≤ sgs.countP (fun x => eqv x sg) := by
          by_cases hb : 1 < (mk b as sgs).size
          · simpa [hb] using h2
          · simp [hb] at h2
        obtain ⟨j2, x, hne, hx, hex⟩ := two_of_countP _ sgs h3 j
        refine ⟨[j2], Elem.cut x, by simpa using hne, ?_, ?_, by simp⟩
        · rw [elem_at_single, child_cut (mk b as sgs) x j2 hx]
        · show repr c = repr x
          rw [hc, (eqv_iff x sg).1 hex]
      · refine ⟨[k], Elem.cut sg, ?_, ?_, hc, by simp⟩
        · intro e; rw [← e] at hl; exact hl rfl
        · rw [elem_at_single, child_cut (mk b as sgs) sg k hk]
    · -- a deiteration inside the subgraph `k`
      simp only [subgraphs_mk] at hk
      obtain ⟨e, he, q, e1, hne, hq, hsame, hpre⟩ := ih sg (List.getElem?_mem hk) p1 hp1
      have hp1n := elem_at_ne_nil sg p1 e he
      have hqn := elem_at_ne_nil sg q e1 hq
      refine ⟨e, by rw [elem_at_cons (mk b as sgs) sg k p1 hk hp1n, he], k :: q, e1, by simpa using hne,
        by rw [elem_at_cons (mk b as sgs) sg k q hk hqn, hq], hsame, ?_⟩
      rw [List.dropLast_cons_of_ne_nil hqn, List.dropLast_cons_of_ne_nil hp1n]
      exact List.prefix_cons_inj k |>.2 hpre
    · -- an atom equal to an atom of this node
      obtain ⟨hr, hsing⟩ := mem_drop_single _ p h
      obtain ⟨q0, j, N, rfl, hN, hj, _⟩ := (mem_get_paths_to a _ p).1 hr
      refine ⟨Elem.atom a, by rw [elem_at_append _ N q0 _ hN, child_atom N a j hj], ?_⟩
      by_cases hl : (q0 ++ [j + N.num_subgraphs]).length = 1
      · have hq0 : q0 = [] := by simpa using hl
        subst hq0
        simp only [node_at, Option.some.injEq] at hN
        subst hN
        have h2 := hsing hl
        rw [singles_get_paths_to] at h2
        have h3 : 2 ≤ as.countP (fun x => decide (x = a)) := by
          by_cases hb : 1 < (mk b as sgs).size
          · simpa [hb] using h2
          · simp [hb] at h2
        obtain ⟨j2, x, hne, hx, hex⟩ := two_of_countP _ as h3 j
        have hxa : x = a := by simpa using hex
        subst hxa
        refine ⟨[j2 + (mk b as sgs).num_subgraphs], Elem.atom x, by simpa using hne, ?_, rfl,
          by simp⟩
        rw [elem_at_single, child_atom (mk b as sgs) x j2 hx]
      · simp only [atoms_mk] at ha
        obtain ⟨k, hk⟩ := List.mem_iff_getElem?.1 ha
        refine ⟨[k + (mk b as sgs).num_subgraphs], Elem.atom a, ?_, ?_, rfl, by simp⟩
        · intro e; rw [← e] at hl; exact hl rfl
        · rw [elem_at_single, child_atom (mk b as sgs) a k hk]

/-- C6: every path returned by `possible_deiterations` is a valid address, and
another valid address holds a structurally identical element. -/
theorem deiteration_safe (g : AEGraph) (p : List Nat) (h : p ∈ possible_deiterations g) :
    ∃ e, elem_at g p = some e ∧ ∃ q e1, q ≠ p ∧ elem_at g q = some e1 ∧ Elem.same e e1 := by
  obtain ⟨e, he, q, e1, h1, h2, h3, _⟩ := deiteration_partner g p h
  exact ⟨e, he, q, e1, h1, h2, h3⟩

/-- The witness of C6 on `(A, [A, B])`: the atom `A` at `[0, 0]` is a
deiteration target. -/
theorem deiteration_safe_witness :
    parse "(A, [A, B])".toList
      = some (mk true ["A".toList] [mk false ["A".toList, "B".toList] []])
    ∧ [0, 0] ∈ possible_deiterations (mk true ["A".toList] [mk false ["A".toList, "B".toList] []])
    ∧ ∃ e, elem_at (mk true ["A".toList] [mk false ["A".toList, "B".toList] []]) [0, 0] = some e
      ∧ ∃ q e1, q ≠ [0, 0]
        ∧ elem_at (mk true ["A".toList] [mk false ["A".toList, "B".toList] []]) q = some e1
        ∧ Elem.same e e1 :=
  ⟨by decide, by decide, deiteration_safe _ [0, 0] (by decide)⟩

/-- C7 (amended): when the atom `a` occurs exactly once among the atoms of the
root, `possible_deiterations` returns the address of every occurrence of `a` in
a nested cut that has at least two elements, and does not return the address
of the occurrence in the root. -/
theorem deiteration_nested (g : AEGraph) (a : Str) (k : Nat) (hk : g.atoms[k]? = some a)
    (hone : g.atoms.count a = 1) :
    (∀ q j N, q ≠ [] → node_at g q = some N → N.atoms[j]? = some a → 2 ≤ N.size →
        q ++ [j + N.num_subgraphs] ∈ possible_deiterations g)
    ∧ [k + g.num_subgraphs] ∉ possible_deiterations g := by
  constructor
  · intro q j N hq hN hj hs
    rw [mem_possible_deiterations]
    right
    refine ⟨a, List.getElem?_mem hk, drop_single_keeps _ _ ?_ ?_⟩
    · exact (mem_get_paths_to a g _).2 ⟨q, j, N, rfl, hN, hj, by omega⟩
    · cases q with
      | nil => exact absurd rfl hq
      | cons x q => simp
  · intro hp
    rcases (mem_possible_deiterations _ _).1 hp with ⟨k1, sg, hk1, h | ⟨p1, hp1, he⟩⟩ | ⟨a1, _, h⟩
    · obtain ⟨hr, _⟩ := mem_drop_single _ _ h
      obtain ⟨q0, j, N, c, he, hN, hj, _, _⟩ := get_paths_to_graph_sound sg _ _ hr
      have hq0 : q0 = [] := by
        have := congrArg List.length he
        simp only [List.length_cons, List.length_nil, List.length_append] at this
        exact List.length_eq_zero.1 (by omega)
      subst hq0
      simp only [node_at, Option.some.injEq] at hN
      subst hN
      simp only [List.nil_append, List.cons.injEq, and_true] at he
      have hlt : j < g.subgraphs.length := (List.getElem?_eq_some.1 hj).1
      unfold num_subgraphs at he
      omega
    · obtain ⟨e, he1, _⟩ := deiteration_partner sg p1 hp1
      have := elem_at_ne_nil sg p1 e he1
      simp only [List.cons.injEq] at he
      exact this he.2.symm
    · obtain ⟨hr, _⟩ := mem_drop_single _ _ h
      obtain ⟨q0, j, N, he, hN, hj, hs⟩ := (mem_get_paths_to a1 g _).1 hr
      have hq0 : q0 = [] := by
        have := congrArg List.length he
        simp only [List.length_cons, List.length_nil, List.length_append] at this
        exact List.length_eq_zero.1 (by omega)
      subst hq0
      simp only [node_at, Option.some.injEq] at hN
      subst hN
      simp only [List.nil_append, List.cons.injEq, and_true] at he
      have hjk : j = k := by omega
      subst hjk
      rw [hk] at hj
      simp only [Option.some.injEq] at hj
      subst hj
      have hcount : (singles (get_paths_to g a)).length = 1 := by
        rw [singles_get_paths_to, if_pos hs, ← hone, List.count_eq_countP]
        congr 1
        funext x
        by_cases hxa : x = a <;> simp [hxa]
      exact drop_single_removes _ _ hcount h rfl

/-- The witness of C7 (amended) on `(A, [A, B])`: the path `[0, 0]` to the `A`
inside the cut is returned, the path `[1]` to the `A` of the root is not. -/
theorem deiteration_nested_witness :
    parse "(A, [A, B])".toList
      = some (mk true ["A".toList] [mk false ["A".toList, "B".toList] []])
    ∧ [0, 0] ∈ possible_deiterations (mk true ["A".toList] [mk false ["A".toList, "B".toList] []])
    ∧ [1] ∉ possible_deiterations (mk true ["A".toList] [mk false ["A".toList, "B".toList] []]) :=
  ⟨by decide,
    (deiteration_nested (mk true ["A".toList] [mk false ["A".toList, "B".toList] []])
      "A".toList 0 rfl (by decide)).1 [0] 0 (mk false ["A".toList, "B".toList] [])
      (by simp) rfl rfl (by decide),
    (deiteration_nested (mk true ["A".toList] [mk false ["A".toList, "B".toList] []])
      "A".toList 0 rfl (by decide)).2⟩

/-- The counterexample to C7 as stated: in the graph of `(A, [A])` the atom `A`
occurs once in the root and once inside the cut, at `[0, 0]`, and
`possible_deiterations` returns no path. -/
theorem deiteration_singleton_counterexample :
    parse "(A, [A])".toList = some (mk true ["A".toList] [mk false ["A".toList] []])
    ∧ (mk true ["A".toList] [mk false ["A".toList] []]).atoms.count "A".toList = 1
    ∧ elem_at (mk true ["A".toList] [mk false ["A".toList] []]) [0, 0]
        = some (Elem.atom "A".toList)
    ∧ possible_deiterations (mk true ["A".toList] [mk false ["A".toList] []]) = []
    ∧ [0, 0] ∉ possible_deiterations (mk true ["A".toList] [mk false ["A".toList] []]) :=
  ⟨by decide, by decide, by rfl, by decide, by decide⟩


/-! ### Splitting a joined list of elements -/

theorem scan_elem_append (e : Str) : ∀ (n : Int) (rest : Str),
    scan_elem n (e ++ rest) = (scan_elem n e).bind (fun m => scan_elem m rest) := by
  induction e with
  | nil => intro n rest; rfl
  | cons c e ih =>
    intro n rest
    rw [List.cons_append, scan_elem, scan_elem]
    by_cases h : c = ',' ∧ n = 0
    · rw [if_pos h, if_pos h]; rfl
    · rw [if_neg h, if_neg h]; exact ih _ _

/-- The loop of `split_first` runs through a prefix that holds no `,` at
counter zero. -/
theorem split_first_loop_skip (e : Str) : ∀ (pre : Str) (n m : Int) (rest : Str),
    scan_elem n e = some m →
    split_first_loop ',' pre n (e ++ rest) = split_first_loop ',' (pre ++ e) m rest := by
  induction e with
  | nil =>
    intro pre n m rest h
    simp only [scan_elem, Option.some.injEq] at h
    subst h
    simp
  | cons c e ih =>
    intro pre n m rest h
    rw [scan_elem] at h
    by_cases hc : c = ',' ∧ n = 0
    · rw [if_pos hc] at h; cases h
    · rw [if_neg hc] at h
      rw [List.cons_append, split_first_loop, if_neg hc]
      simp only []
      rw [ih _ _ m rest h]
      simp

theorem scan_plain (a : Str) : ∀ n : Int, n ≠ 0 → plain a → scan_elem n a = some n := by
  induction a with
  | nil => intro n _ _; rfl
  | cons c a ih =>
    intro n hn hp
    have hc := hp c (List.mem_cons_self _ _)
    rw [scan_elem, if_neg (fun h => hn h.2), if_neg hc.2, if_neg hc.1]
    exact ih n hn (fun d hd => hp d (List.mem_cons_of_mem _ hd))

theorem scan_plain_zero (a : Str) : plain a → ',' ∉ a → scan_elem 0 a = some 0 := by
  induction a with
  | nil => intro _ _; rfl
  | cons c a ih =>
    intro hp hcomma
    have hc := hp c (List.mem_cons_self _ _)
    have hne : c ≠ ',' := fun h => hcomma (h ▸ List.mem_cons_self _ _)
    rw [scan_elem, if_neg (fun h => hne h.1), if_neg hc.2, if_neg hc.1]
    exact ih (fun d hd => hp d (List.mem_cons_of_mem _ hd))
      (fun h => hcomma (List.mem_cons_of_mem _ h))

/-- A scan from counter zero that never stops, over a text without square
brackets, has met no `,`. -/
theorem no_comma_of_scan (t : Str) : (scan_elem 0 t).isSome = true → plain t → ',' ∉ t := by
  induction t with
  | nil => intro _ _ h; cases h
  | cons c t ih =>
    intro hs hp
    have hc := hp c (List.mem_cons_self _ _)
    rw [scan_elem] at hs
    by_cases h : c = ',' ∧ (0 : Int) = 0
    · rw [if_pos h] at hs; cases hs
    · rw [if_neg h, if_neg hc.2, if_neg hc.1] at hs
      have hne : c ≠ ',' := fun e => h ⟨e, rfl⟩
      intro hmem
      rcases List.mem_cons.1 hmem with e | e
      · exact hne e.symm
      · exact ih hs (fun d hd => hp d (List.mem_cons_of_mem _ hd)) e

theorem split_first_loop_fst (s : Str) : ∀ (pre : Str) (n : Int),
    ∃ t, (split_first_loop ',' pre n s).1 = strip (pre ++ t) ∧ (scan_elem n t).isSome = true := by
  induction s with
  | nil => intro pre n; exact ⟨[], by simp [split_first_loop], rfl⟩
  | cons c rest ih =>
    intro pre n
    rw [split_first_loop]
    by_cases h : c = ',' ∧ n = 0
    · rw [if_pos h]; exact ⟨[], by simp, rfl⟩
    · rw [if_neg h]
      obtain ⟨t, h1, h2⟩ := ih (pre ++ [c])
        (if c = ']' then (if c = '[' then n + 1 else n) - 1 else (if c = '[' then n + 1 else n))
      refine ⟨c :: t, by simpa using h1, ?_⟩
      rw [scan_elem, if_neg h]
      exact h2

/-- Every element returned by `split_level` has no blank at its ends, and
holds no `,` unless it holds a square bracket. -/
theorem split_level_loop_elem (fuel : Nat) : ∀ (s : Str),
    ∀ e ∈ split_level_loop ',' fuel s, Tight e ∧ (plain e → ',' ∉ e) := by
  have first : ∀ s : Str, plain (split_first s ',').1 → ',' ∉ (split_first s ',').1 := by
    intro s hp
    obtain ⟨t, h1, h2⟩ := split_first_loop_fst s [] 0
    rw [List.nil_append] at h1
    unfold split_first at hp ⊢
    rw [h1] at hp ⊢
    have hpt : plain t := by
      intro c hc
      by_contra hb
      have hblank : isBlank c = false := by
        have : c = '[' ∨ c = ']' := by
          by_contra hn
          exact hb ⟨fun e => hn (Or.inl e), fun e => hn (Or.inr e)⟩
        rcases this with rfl | rfl <;> rfl
      exact hb (hp c (mem_strip t c hc hblank))
    exact fun hm => no_comma_of_scan t h2 hpt (strip_subset t _ hm)
  induction fuel with
  | zero => intro s e h; simp [split_level_loop] at h
  | succ fuel ih =>
    intro s e h
    rw [split_level_loop] at h
    by_cases hp : (split_first s ',').2 = []
    · simp only [hp, if_true, List.mem_singleton] at h
      rw [h]; exact ⟨split_first_loop_tight s [] 0, first s⟩
    · simp only [hp, if_false, List.mem_cons] at h
      rcases h with rfl | h
      · exact ⟨split_first_loop_tight s [] 0, first s⟩
      · exact ih _ e h


theorem intercalate_single (e : Str) : sep.intercalate [e] = e := by
  simp [List.intercalate]

theorem tight_intercalate (l : List Str) (ht : ∀ e ∈ l, Tight e) (hne : l ≠ [])
    (hlast : l.getLast? ≠ some []) :
    Tight (sep.intercalate l) ∧ sep.intercalate l ≠ [] := by
  obtain ⟨x, hx⟩ : ∃ x, l.getLast? = some x := by
    cases h : l.getLast? with
    | none => exact absurd (List.getLast?_eq_none_iff.1 h) hne
    | some x => exact ⟨x, rfl⟩
  have hxne : x ≠ [] := fun e => hlast (e ▸ hx)
  obtain ⟨z, hz⟩ := intercalate_getLast l x hx
  have hxl : x ∈ l := by
    obtain ⟨ys, hys⟩ := List.getLast?_eq_some_iff.1 hx
    rw [hys]; simp
  have hnonempty : sep.intercalate l ≠ [] := by
    rw [hz]; simp [hxne]
  refine ⟨⟨?_, ?_⟩, hnonempty⟩
  · intro c hc
    cases l with
    | nil => exact absurd rfl hne
    | cons e rest =>
      cases rest with
      | nil =>
        rw [intercalate_single] at hc
        exact (ht e (List.mem_cons_self _ _)).1 c hc
      | cons e2 more =>
        rw [intercalate_cons_cons] at hc
        cases e with
        | nil =>
          simp only [List.nil_append, sep, List.cons_append, List.head?_cons,
            Option.some.injEq] at hc
          rw [← hc]; rfl
        | cons d e =>
          simp only [List.cons_append, List.head?_cons, Option.some.injEq] at hc
          exact (ht (d :: e) (List.mem_cons_self _ _)).1 c (by simp [hc])
  · intro c hc
    rw [hz, List.getLast?_append] at hc
    cases hxl2 : x.getLast? with
    | none => exact absurd (List.getLast?_eq_none_iff.1 hxl2) hxne
    | some d =>
      rw [hxl2] at hc
      simp only [Option.or_some, Option.some.injEq] at hc
      exact (ht x hxl).2 c (by rw [hxl2, hc])

/-- `split_level` gives back the elements of a text written by joining them
with `", "`, when no element has a blank at its ends or a `,` at counter zero,
every element leaves the counter at zero, and the last of two or more elements
is not empty. -/
theorem split_level_loop_intercalate : ∀ (elems : List Str), elems ≠ [] →
    (∀ e ∈ elems, Tight e ∧ scan_elem 0 e = some 0) →
    (2 ≤ elems.length → elems.getLast? ≠ some []) →
    ∀ fuel, (sep.intercalate elems).length < fuel →
      split_level_loop ',' fuel (sep.intercalate elems) = elems := by
  intro elems
  induction elems with
  | nil => intro h; exact absurd rfl h
  | cons e1 rest ih =>
    intro _ hall hlast fuel hfuel
    cases fuel with
    | zero => omega
    | succ fuel =>
      obtain ⟨ht1, hs1⟩ := hall e1 (List.mem_cons_self _ _)
      cases rest with
      | nil =>
        rw [intercalate_single, split_level_loop]
        have h1 : split_first e1 ',' = (e1, []) := by
          have := split_first_loop_skip e1 [] 0 0 [] hs1
          rw [List.append_nil, List.nil_append] at this
          rw [split_first, this, split_first_loop, strip_of_tight e1 ht1]
        rw [h1]
        simp
      | cons e2 more =>
        have hlast2 : (e2 :: more).getLast? ≠ some [] := by
          have := hlast (by simp)
          rwa [List.getLast?_cons_cons] at this
        have hall2 : ∀ e ∈ e2 :: more, Tight e ∧ scan_elem 0 e = some 0 :=
          fun e he => hall e (List.mem_cons_of_mem _ he)
        obtain ⟨htJ, hneJ⟩ := tight_intercalate (e2 :: more) (fun e he => (hall2 e he).1)
          (by simp) hlast2
        have h1 : split_first (sep.intercalate (e1 :: e2 :: more)) ','
            = (e1, sep.intercalate (e2 :: more)) := by
          rw [intercalate_cons_cons, List.append_assoc, split_first,
            split_first_loop_skip e1 [] 0 0 _ hs1, List.nil_append]
          show split_first_loop ',' e1 0 (',' :: ' ' :: sep.intercalate (e2 :: more)) = _
          rw [split_first_loop, if_pos ⟨rfl, rfl⟩, strip_of_tight e1 ht1,
            strip_blank_cons ' ' _ rfl, strip_of_tight _ htJ]
        rw [split_level_loop, h1]
        simp only [hneJ, if_false]
        rw [ih (by simp) hall2 (fun _ => hlast2) fuel]
        rw [intercalate_cons_cons] at hfuel
        simp only [List.length_append, List.length_cons] at hfuel
        have hsep : sep.length = 2 := rfl
        omega

theorem split_level_intercalate (elems : List Str) (hne : elems ≠ [])
    (hall : ∀ e ∈ elems, Tight e ∧ scan_elem 0 e = some 0)
    (hlast : 2 ≤ elems.length → elems.getLast? ≠ some []) :
    split_level (sep.intercalate elems) = elems :=
  split_level_loop_intercalate elems hne hall hlast _ (Nat.lt_succ_self _)


/-! ### Properties of all nodes, through `sort` and through the constructor -/

theorem all_nodes_mk (P : AEGraph → Prop) (b : Bool) (as : List Str) (sgs : List AEGraph) :
    all_nodes P (mk b as sgs) ↔ P (mk b as sgs) ∧ ∀ sg ∈ sgs, all_nodes P sg := by
  constructor
  · intro h
    refine ⟨h [] _ rfl, ?_⟩
    intro sg hsg q N hN
    obtain ⟨k, hk⟩ := List.mem_iff_getElem?.1 hsg
    exact h (k :: q) N (by simp [node_at, hk, hN])
  · rintro ⟨h1, h2⟩ q N hN
    cases q with
    | nil =>
      simp only [node_at, Option.some.injEq] at hN
      rw [← hN]; exact h1
    | cons k q =>
      rw [node_at] at hN
      simp only [subgraphs_mk] at hN
      cases hk : sgs[k]? with
      | none => simp [hk] at hN
      | some sg =>
        simp only [hk] at hN
        exact h2 sg (List.getElem?_mem hk) q N hN

theorem all_nodes_root (P : AEGraph → Prop) (g : AEGraph) (h : all_nodes P g) : P g :=
  h [] g rfl

theorem all_nodes_sub (P : AEGraph → Prop) (g sg : AEGraph) (h : all_nodes P g)
    (hsg : sg ∈ g.subgraphs) : all_nodes P sg := by
  cases g with
  | mk b as sgs => exact ((all_nodes_mk P b as sgs).1 h).2 sg hsg

theorem sort_all_nodes (P : AEGraph → Prop)
    (hP : ∀ (b : Bool) (as as1 : List Str) (sgs sgs1 : List AEGraph),
      as1.Perm as → sgs1.length = sgs.length → P (mk b as sgs) → P (mk b as1 sgs1)) :
    ∀ g : AEGraph, all_nodes P g → all_nodes P (sort g) := by
  intro g
  induction g using AEGraph.induct with
  | h b as sgs ih =>
    intro h
    obtain ⟨h1, h2⟩ := (all_nodes_mk P b as sgs).1 h
    rw [sort_eq, all_nodes_mk]
    constructor
    · exact hP b as _ sgs _ (List.perm_insertionSort _ _)
        (by simp [List.length_insertionSort]) h1
    · intro sg hsg
      rw [subgraphs_mk, List.mem_insertionSort, List.mem_map] at hsg
      obtain ⟨sg0, hsg0, rfl⟩ := hsg
      exact ih sg0 hsg0 (h2 sg0 hsg0)

/-- The result of `sort` is in canonical form. -/
theorem sort_canonical : ∀ g : AEGraph, canonical (sort g) := by
  intro g
  induction g using AEGraph.induct with
  | h b as sgs ih =>
    rw [sort_eq]
    unfold canonical
    rw [all_nodes_mk]
    constructor
    · exact ⟨sorted_sort_str _, sorted_sort_graph _⟩
    · intro sg hsg
      rw [subgraphs_mk, List.mem_insertionSort, List.mem_map] at hsg
      obtain ⟨sg0, hsg0, rfl⟩ := hsg
      exact ih sg0 hsg0

/-- `sort` does not change a graph in canonical form. -/
theorem canonical_sort_eq : ∀ g : AEGraph, canonical g → sort g = g := by
  intro g
  induction g using AEGraph.induct with
  | h b as sgs ih =>
    intro h
    obtain ⟨h1, h2⟩ := (all_nodes_mk _ b as sgs).1 h
    have hm : sgs.map sort = sgs := by
      conv_rhs => rw [← List.map_id sgs]
      exact List.map_congr_left (fun sg hsg => ih sg hsg (h2 sg hsg))
    rw [sort_eq]
    simp only [is_SA_mk, atoms_mk, subgraphs_mk, hm]
    have e1 : as.insertionSort strLe = as := List.Sorted.insertionSort_eq h1.1
    have e2 : sgs.insertionSort graphLe = sgs := List.Sorted.insertionSort_eq h1.2
    rw [e1, e2]

theorem parseElems_size (rec : Str → Option AEGraph) : ∀ (v : List Str) (as : List Str)
    (sgs : List AEGraph), parseElems rec v = some (as, sgs) →
      as.length + sgs.length = v.length := by
  intro v
  induction v with
  | nil =>
    intro as sgs h
    simp only [parseElems, Option.some.injEq, Prod.mk.injEq] at h
    obtain ⟨rfl, rfl⟩ := h
    rfl
  | cons s v ih =>
    intro as sgs h
    rw [parseElems] at h
    by_cases hs : s.head? ≠ some '['
    · rw [if_pos hs] at h
      cases hp : parseElems rec v with
      | none => simp [hp] at h
      | some pr =>
        obtain ⟨pa, pg⟩ := pr
        simp only [hp, Option.map_some', Option.some.injEq, Prod.mk.injEq] at h
        obtain ⟨rfl, rfl⟩ := h
        have := ih pa pg hp
        simp only [List.length_cons]
        omega
    · rw [if_neg hs] at h
      cases hr : rec s with
      | none => simp [hr] at h
      | some sg =>
        simp only [hr] at h
        cases hp : parseElems rec v with
        | none => simp [hp] at h
        | some pr =>
          obtain ⟨pa, pg⟩ := pr
          simp only [hp, Option.map_some', Option.some.injEq, Prod.mk.injEq] at h
          obtain ⟨rfl, rfl⟩ := h
          have := ih pa pg hp
          simp only [List.length_cons]
          omega

theorem parsed_node_perm (b : Bool) (as as1 : List Str) (sgs sgs1 : List AEGraph)
    (hp : as1.Perm as) (hl : sgs1.length = sgs.length) (h : parsed_node (mk b as sgs)) :
    parsed_node (mk b as1 sgs1) := by
  obtain ⟨h1, h2⟩ := h
  constructor
  · intro a ha
    exact h1 a (hp.subset ha)
  · simp only [size, num_atoms, num_subgraphs, atoms_mk, subgraphs_mk] at h2 ⊢
    rw [hp.length_eq, hl]; exact h2

/-- Every graph built by the constructor is in canonical form, and each of its
nodes has at least one element and atoms without blanks at their ends. -/
theorem parseFuel_nodes : ∀ (n : Nat) (s : Str) (g : AEGraph), parseFuel n s = some g →
    all_nodes parsed_node g ∧ canonical g := by
  intro n
  induction n with
  | zero => intro s g h; simp [parseFuel] at h
  | succ n ih =>
    intro s g h
    obtain ⟨l, r, as, sgs, _, _, _, hp, rfl⟩ := (parseFuel_succ n s g).1 h
    refine ⟨?_, sort_canonical _⟩
    apply sort_all_nodes parsed_node parsed_node_perm
    rw [all_nodes_mk]
    obtain ⟨has, hall⟩ := parseElems_spec _ _ _ _ hp
    constructor
    · constructor
      · intro a ha
        simp only [atoms_mk] at ha
        rw [has] at ha
        exact split_level_loop_elem _ _ a (List.mem_filter.1 ha).1
      · have hsz := parseElems_size _ _ _ _ hp
        have hne := split_level_ne_nil ((s.drop 1).take (s.length - 2))
        have : 0 < (split_level ((s.drop 1).take (s.length - 2))).length :=
          List.length_pos.2 hne
        simp only [size, num_atoms, num_subgraphs, atoms_mk, subgraphs_mk]
        omega
    · intro sg hsg
      obtain ⟨x, _, hr⟩ := forall₂_mem_right hall sg hsg
      exact (ih x sg hr).1


/-! ### Reading back a serialization -/

theorem scan_sep (m : Int) (hm : m ≠ 0) : scan_elem m sep = some m := by
  simp [sep, scan_elem, hm]

theorem scan_intercalate (m : Int) (hm : m ≠ 0) : ∀ (l : List Str),
    (∀ e ∈ l, scan_elem m e = some m) → scan_elem m (sep.intercalate l) = some m := by
  intro l
  induction l with
  | nil => intro _; rfl
  | cons e1 rest ih =>
    intro h
    cases rest with
    | nil => rw [intercalate_single]; exact h e1 (List.mem_cons_self _ _)
    | cons e2 more =>
      rw [intercalate_cons_cons, List.append_assoc, scan_elem_append,
        h e1 (List.mem_cons_self _ _), Option.some_bind, scan_elem_append, scan_sep m hm,
        Option.some_bind]
      exact ih (fun e he => h e (List.mem_cons_of_mem _ he))

theorem repr_cut (g : AEGraph) (h : g.is_SA = false) :
    repr g = '[' :: (sep.intercalate (g.subgraphs.map repr ++ g.atoms) ++ [']']) := by
  rw [repr_eq, h]
  simp

/-- The serialization of a cut whose atoms hold no square bracket leaves the
counter of `split_first` where it was, and holds no `,` at counter zero. -/
theorem repr_closed : ∀ g : AEGraph, g.is_SA = false → nested_cuts g → readable g →
    ∀ n : Int, 0 ≤ n → scan_elem n (repr g) = some n := by
  intro g
  induction g using AEGraph.induct with
  | h b as sgs ih =>
    intro hb hcuts hread n hn
    rw [repr_cut _ hb, scan_elem]
    have h1 : ¬ (('[' : Char) = ',' ∧ n = 0) := fun h => absurd h.1 (by decide)
    rw [if_neg h1]
    simp only [if_true, show ¬ (('[' : Char) = ']') from by decide, if_false]
    rw [scan_elem_append, scan_intercalate (n + 1) (by omega), Option.some_bind]
    · have h2 : ¬ ((']' : Char) = ',' ∧ n + 1 = 0) := fun h => absurd h.1 (by decide)
      rw [scan_elem, if_neg h2]
      simp only [if_true, show ¬ ((']' : Char) = '[') from by decide, if_false, scan_elem]
      congr 1
      omega
    · intro e he
      simp only [subgraphs_mk, atoms_mk] at he
      rcases List.mem_append.1 he with he | he
      · obtain ⟨sg, hsg, rfl⟩ := List.mem_map.1 he
        obtain ⟨hsa, hsc⟩ := (nested_cuts_mk b as sgs).1 hcuts sg hsg
        exact ih sg hsg hsa hsc (all_nodes_sub _ _ sg hread hsg) (n + 1) (by omega)
      · exact scan_plain e (n + 1) (by omega) ((all_nodes_root _ _ hread).1 e he)

theorem tight_repr (g : AEGraph) : Tight (repr g) := by
  constructor
  · intro c hc
    rw [repr_eq] at hc
    cases hg : g.is_SA <;> simp [hg] at hc <;> rw [← hc] <;> rfl
  · intro c hc
    obtain ⟨y, k, hy, hk⟩ := repr_last g
    rw [hy] at hc
    have e : k = c := by simpa using hc
    subst e
    rcases hk with rfl | rfl <;> rfl

theorem repr_ne_nil (g : AEGraph) : repr g ≠ [] := by
  obtain ⟨y, k, hy, _⟩ := repr_last g
  rw [hy]; simp

theorem head_repr_cut (g : AEGraph) (h : g.is_SA = false) : (repr g).head? = some '[' := by
  rw [repr_cut g h]; rfl

theorem bracketed_parts (l r : Char) (J : Str) :
    (l :: (J ++ [r])).head? = some l ∧ (l :: (J ++ [r])).getLast? = some r
      ∧ inner_text (l :: (J ++ [r])) = J := by
  refine ⟨rfl, ?_, ?_⟩
  · rw [List.getLast?_cons, List.getLast?_append]
    simp
  · unfold inner_text
    simp

theorem parseElems_atoms (rec : Str → Option AEGraph) : ∀ (as : List Str),
    (∀ a ∈ as, a.head? ≠ some '[') → parseElems rec as = some (as, []) := by
  intro as
  induction as with
  | nil => intro _; rfl
  | cons a as ih =>
    intro h
    rw [parseElems, if_pos (h a (List.mem_cons_self _ _)),
      ih (fun x hx => h x (List.mem_cons_of_mem _ hx))]
    rfl

theorem parseElems_reprs (rec : Str → Option AEGraph) (as : List Str)
    (has : ∀ a ∈ as, a.head? ≠ some '[') : ∀ (sgs : List AEGraph),
    (∀ sg ∈ sgs, (repr sg).head? = some '[' ∧ rec (repr sg) = some sg) →
      parseElems rec (sgs.map repr ++ as) = some (as, sgs) := by
  intro sgs
  induction sgs with
  | nil => intro _; exact parseElems_atoms rec as has
  | cons sg sgs ih =>
    intro h
    obtain ⟨h1, h2⟩ := h sg (List.mem_cons_self _ _)
    rw [List.map_cons, List.cons_append, parseElems, if_neg (by simp [h1]), h2]
    simp only []
    rw [ih (fun x hx => h x (List.mem_cons_of_mem _ hx))]
    rfl

theorem plain_head (a : Str) (h : plain a) : a.head? ≠ some '[' := by
  cases a with
  | nil => simp
  | cons c a =>
    have := (h c (List.mem_cons_self _ _)).1
    simpa using this

/-- The constructor reads back a graph from its serialization when the graph
is in canonical form with the guarantees of the constructor, below the root
all nodes are cuts, no atom holds a square bracket and no empty atom is the
last of two or more elements. -/
theorem parse_repr : ∀ g : AEGraph, all_nodes parsed_node g → canonical g → nested_cuts g →
    readable g → parse (repr g) = some g := by
  intro g
  induction g using AEGraph.induct with
  | h b as sgs ih =>
    intro hparsed hcanon hcuts hread
    obtain ⟨hpn, hpsub⟩ := (all_nodes_mk _ b as sgs).1 hparsed
    obtain ⟨hrn, hrsub⟩ := (all_nodes_mk _ b as sgs).1 hread
    have hcsub := ((all_nodes_mk _ b as sgs).1 hcanon).2
    have hcutsub := (nested_cuts_mk b as sgs).1 hcuts
    -- the elements written between the brackets
    have hall : ∀ e ∈ sgs.map repr ++ as, Tight e ∧ scan_elem 0 e = some 0 := by
      intro e he
      rcases List.mem_append.1 he with he | he
      · obtain ⟨sg, hsg, rfl⟩ := List.mem_map.1 he
        obtain ⟨hsa, hsc⟩ := hcutsub sg hsg
        exact ⟨tight_repr sg, repr_closed sg hsa hsc (hrsub sg hsg) 0 (Int.le_refl 0)⟩
      · obtain ⟨ht, hcomma⟩ := hpn.1 e he
        exact ⟨ht, scan_plain_zero e (hrn.1 e he) (hcomma (hrn.1 e he))⟩
    have hne : sgs.map repr ++ as ≠ [] := by
      have := hpn.2
      simp only [size, num_atoms, num_subgraphs, atoms_mk, subgraphs_mk] at this
      intro h
      have hl := congrArg List.length h
      simp only [List.length_append, List.length_map, List.length_nil] at hl
      omega
    have hlast : 2 ≤ (sgs.map repr ++ as).length → (sgs.map repr ++ as).getLast? ≠ some [] := by
      intro h2
      have hsz : 2 ≤ (mk b as sgs).size := by
        simp only [List.length_append, List.length_map] at h2
        simp only [size, num_atoms, num_subgraphs, atoms_mk, subgraphs_mk]
        omega
      rw [List.getLast?_append]
      cases hl : as.getLast? with
      | some x =>
        have := hrn.2 hsz
        simp only [atoms_mk, hl] at this
        simpa using this
      | none =>
        simp only [Option.none_or, List.getLast?_map]
        cases hl2 : sgs.getLast? with
        | none => simp
        | some sg =>
          simp only [Option.map_some', ne_eq, Option.some.injEq]
          exact repr_ne_nil sg
    have hsplit := split_level_intercalate _ hne hall hlast
    -- the recursive constructor calls and the loop over the elements
    have helems : parseElems parse (sgs.map repr ++ as) = some (as, sgs) := by
      apply parseElems_reprs parse as (fun a ha => plain_head a (hrn.1 a ha))
      intro sg hsg
      obtain ⟨hsa, hsc⟩ := hcutsub sg hsg
      exact ⟨head_repr_cut sg hsa, ih sg hsg (hpsub sg hsg) (hcsub sg hsg) hsc (hrsub sg hsg)⟩
    have hsort : sort (mk b as sgs) = mk b as sgs := canonical_sort_eq _ hcanon
    rw [parse_some_iff]
    cases b with
    | true =>
      have hrepr : repr (mk true as sgs)
          = '(' :: (sep.intercalate (sgs.map repr ++ as) ++ [')']) := by
        rw [repr_eq]; simp
      obtain ⟨p1, p2, p3⟩ := bracketed_parts '(' ')' (sep.intercalate (sgs.map repr ++ as))
      rw [hrepr]
      refine ⟨'(', ')', as, sgs, p1, p2, Or.inl ⟨rfl, rfl⟩, ?_, ?_⟩
      · rw [p3, hsplit]; exact helems
      · exact hsort.symm
    | false =>
      have hrepr : repr (mk false as sgs)
          = '[' :: (sep.intercalate (sgs.map repr ++ as) ++ [']']) := by
        rw [repr_eq]; simp
      obtain ⟨p1, p2, p3⟩ := bracketed_parts '[' ']' (sep.intercalate (sgs.map repr ++ as))
      rw [hrepr]
      refine ⟨'[', ']', as, sgs, p1, p2, Or.inr ⟨rfl, rfl⟩, ?_, ?_⟩
      · rw [p3, hsplit]; exact helems
      · exact hsort.symm


/-! ### The round trip -/

/-- C1 (amended): when a text is parsed to a graph in which no atom holds a
square bracket and no empty atom is the last of two or more elements of a
node, parsing the serialization of the graph gives the graph itself, hence a
graph equal to it under `operator==`. -/
theorem round_trip (s : Str) (g : AEGraph) (hg : parse s = some g) (hr : readable g) :
    parse (repr g) = some g ∧ ∃ g1, parse (repr g) = some g1 ∧ eqv g1 g = true := by
  obtain ⟨hnodes, hcanon⟩ := parseFuel_nodes _ s g hg
  obtain ⟨_, hcuts⟩ := parseFuel_kind _ s g hg
  have h := parse_repr g hnodes hcanon hcuts hr
  exact ⟨h, g, h, by simp [eqv]⟩

/-- The witness of C1 (amended) on `([C, B], A)`, which is read back from its
serialization `([B, C], A)`. -/
theorem round_trip_witness :
    parse "([C, B], A)".toList
      = some (mk true ["A".toList] [mk false ["B".toList, "C".toList] []])
    ∧ readable (mk true ["A".toList] [mk false ["B".toList, "C".toList] []])
    ∧ repr (mk true ["A".toList] [mk false ["B".toList, "C".toList] []]) = "([B, C], A)".toList
    ∧ (parse (repr (mk true ["A".toList] [mk false ["B".toList, "C".toList] []]))
        = some (mk true ["A".toList] [mk false ["B".toList, "C".toList] []])
      ∧ ∃ g1, parse (repr (mk true ["A".toList] [mk false ["B".toList, "C".toList] []])) = some g1
        ∧ eqv g1 (mk true ["A".toList] [mk false ["B".toList, "C".toList] []]) = true) :=
  have hr : readable (mk true ["A".toList] [mk false ["B".toList, "C".toList] []]) := by
    simp [readable, all_nodes_mk, readable_node, plain, size, num_atoms, num_subgraphs]
  ⟨by decide, hr, by decide, round_trip "([C, B], A)".toList _ (by decide) hr⟩

/-- The counterexamples to C1 as stated.  The text `(,[A])` is parsed to a sheet
with the empty atom and the cut `[A]`, serialized as `([A], )`; this is parsed
to a sheet with the cut `[A]` alone, serialized as `([A])`.  The text
`(X, [A[])` is parsed, and its serialization `([A[], X)` is rejected. -/
theorem round_trip_counterexample :
    parse "(,[A])".toList = some (mk true [[]] [mk false ["A".toList] []])
    ∧ repr (mk true [[]] [mk false ["A".toList] []]) = "([A], )".toList
    ∧ parse "([A], )".toList = some (mk true [] [mk false ["A".toList] []])
    ∧ repr (mk true [] [mk false ["A".toList] []]) = "([A])".toList
    ∧ eqv (mk true [] [mk false ["A".toList] []]) (mk true [[]] [mk false ["A".toList] []]) = false
    ∧ parse "(X, [A[])".toList = some (mk true ["X".toList] [mk false ["A[".toList] []])
    ∧ repr (mk true ["X".toList] [mk false ["A[".toList] []]) = "([A[], X)".toList
    ∧ parse "([A[], X)".toList = none :=
  ⟨by decide, by decide, by decide, by decide, by decide, by decide, by decide, by decide⟩


/-! ### Idempotence of `sort`, the size of a parsed node, the deduplication -/

/-- C11: `sort` applied to a sorted graph changes nothing, so the serialization
is the same; a graph built by the constructor is left as it is by `sort`. -/
theorem sort_idempotent (g : AEGraph) :
    sort (sort g) = sort g ∧ repr (sort (sort g)) = repr (sort g)
    ∧ eqv (sort (sort g)) (sort g) = true
    ∧ ∀ s, parse s = some g → sort g = g ∧ repr (sort g) = repr g := by
  have h := canonical_sort_eq (sort g) (sort_canonical g)
  refine ⟨h, by rw [h], by rw [h]; simp [eqv], ?_⟩
  intro s hs
  have h2 := canonical_sort_eq g (parseFuel_nodes _ s g hs).2
  exact ⟨h2, by rw [h2]⟩

/-- The witness of C11 on the graph of `([C, B], A)`. -/
theorem sort_idempotent_witness :
    parse "([C, B], A)".toList
      = some (mk true ["A".toList] [mk false ["B".toList, "C".toList] []])
    ∧ repr (sort (mk true ["A".toList] [mk false ["B".toList, "C".toList] []]))
      = repr (mk true ["A".toList] [mk false ["B".toList, "C".toList] []])
    ∧ repr (sort (sort (mk true ["B".toList, "A".toList] [])))
      = repr (sort (mk true ["B".toList, "A".toList] [])) :=
  ⟨by decide,
    ((sort_idempotent (mk true ["A".toList] [mk false ["B".toList, "C".toList] []])).2.2.2
      "([C, B], A)".toList (by decide)).2,
    (sort_idempotent (mk true ["B".toList, "A".toList] [])).2.1⟩

theorem sort_size (g : AEGraph) : (sort g).size = g.size := by
  rw [sort_eq]
  simp [size, num_atoms, num_subgraphs, List.length_insertionSort]

/-- The size of a parsed node is the number of elements returned by
`split_level` for the text between the outer brackets, which is never zero. -/
theorem parse_size (s : Str) (g : AEGraph) (h : parse s = some g) :
    g.size = (split_level (inner_text s)).length ∧ 1 ≤ g.size := by
  obtain ⟨l, r, as, sgs, _, _, _, hp, rfl⟩ := (parse_some_iff s g).1 h
  have hsz := parseElems_size _ _ _ _ hp
  have hne : 0 < (split_level (inner_text s)).length :=
    List.length_pos.2 (split_level_ne_nil _)
  rw [sort_size]
  simp only [size, num_atoms, num_subgraphs, atoms_mk, subgraphs_mk]
  omega

/-- C19: what the constructor builds from a pair of brackets with nothing in
between: `split_level` returns one element, the empty string, and it becomes
an atom, so the node has one atom and size one. -/
theorem parse_empty_pair :
    split_level [] = [[]]
    ∧ parse "()".toList = some (mk true [[]] [])
    ∧ (mk true [[]] []).num_atoms = 1 ∧ (mk true [[]] []).num_subgraphs = 0
    ∧ (mk true [[]] []).size = 1
    ∧ parse "[]".toList = some (mk false [[]] [])
    ∧ parse "([])".toList = some (mk true [] [mk false [[]] []])
    ∧ (mk false [[]] []).size = 1
    ∧ repr (mk true [[]] []) = "()".toList :=
  ⟨by decide, by decide, by decide, by decide, by decide, by decide, by decide, by decide,
    by decide⟩

theorem nodup_unique_loop (n : Nat) : ∀ (pd : List (List Nat)), pd.length ≤ n →
    (unique_loop n pd).Nodup := by
  induction n with
  | zero =>
    intro pd h
    have : pd = [] := List.length_eq_zero.1 (by omega)
    subst this
    exact List.nodup_nil
  | succ n ih =>
    intro pd h
    cases pd with
    | nil => exact List.nodup_nil
    | cons v pd =>
      have hl : (pd.filter (fun w => decide (w ≠ v))).length ≤ n := by
        have := List.length_filter_le (fun w => decide (w ≠ v)) pd
        simp only [List.length_cons] at h
        omega
      rw [unique_loop, List.nodup_cons]
      refine ⟨?_, ih _ hl⟩
      intro hv
      rw [mem_unique_loop n _ v hl, List.mem_filter] at hv
      simpa using hv.2

theorem possible_deiterations_eq (g : AEGraph) :
    possible_deiterations g = unique (collected_deiterations g) := by
  cases g with
  | mk b as sgs => rw [possible_deiterations]; rfl

/-- C18: the list returned by `possible_deiterations` holds no path twice, and
holds exactly the paths collected before the deduplication. -/
theorem deiterations_nodup (g : AEGraph) :
    (possible_deiterations g).Nodup
    ∧ ∀ p, p ∈ possible_deiterations g ↔ p ∈ collected_deiterations g := by
  rw [possible_deiterations_eq]
  exact ⟨nodup_unique_loop _ _ (Nat.le_refl _), fun p => mem_unique _ p⟩

/-- C20: every path returned by `possible_deiterations` has a counterpart, a
different valid path to a structurally identical element, whose containing
node is the node containing the target or a node above it. -/
theorem deiteration_counterpart_above (g : AEGraph) (p : List Nat)
    (h : p ∈ possible_deiterations g) :
    ∃ e, elem_at g p = some e ∧ ∃ q e1, q ≠ p ∧ elem_at g q = some e1 ∧ Elem.same e e1
      ∧ q.dropLast <+: p.dropLast :=
  deiteration_partner g p h

/-- The witness of C20 on `(A, [A, B], [C], [D, [C]])`: the cut `[C]` at
`[2, 0]` has its counterpart among the elements of the root. -/
theorem deiteration_counterpart_above_witness :
    parse "(A, [A, B], [C], [D, [C]])".toList
      = some (mk true ["A".toList] [mk false ["A".toList, "B".toList] [],
          mk false ["C".toList] [], mk false ["D".toList] [mk false ["C".toList] []]])
    ∧ [2, 0] ∈ possible_deiterations (mk true ["A".toList] [mk false ["A".toList, "B".toList] [],
          mk false ["C".toList] [], mk false ["D".toList] [mk false ["C".toList] []]])
    ∧ ∃ e, elem_at (mk true ["A".toList] [mk false ["A".toList, "B".toList] [],
          mk false ["C".toList] [], mk false ["D".toList] [mk false ["C".toList] []]]) [2, 0]
        = some e
      ∧ ∃ q e1, q ≠ [2, 0]
        ∧ elem_at (mk true ["A".toList] [mk false ["A".toList, "B".toList] [],
          mk false ["C".toList] [], mk false ["D".toList] [mk false ["C".toList] []]]) q = some e1
        ∧ Elem.same e e1 ∧ q.dropLast <+: [2, 0].dropLast :=
  ⟨by decide, by decide, deiteration_counterpart_above _ [2, 0] (by decide)⟩


/-! ### What `erase` does to the node that holds an erasable element -/

/-- The node `N` without its element of index `i`. -/
theorem erase_here_size (N : AEGraph) (i : Nat) (hi : i < N.size) :
    ∃ N1, erase_here i N = some N1 ∧ N1.is_SA = N.is_SA ∧ N1.size + 1 = N.size
      ∧ N1.atoms.Sublist N.atoms ∧ N1.subgraphs.Sublist N.subgraphs := by
  unfold erase_here
  simp only [size, num_atoms, num_subgraphs] at hi ⊢
  by_cases hlt : i < N.subgraphs.length
  · rw [if_neg (by omega)]
    refine ⟨_, rfl, rfl, ?_, List.Sublist.refl _, List.eraseIdx_sublist _ _⟩
    simp only [atoms_mk, subgraphs_mk, List.length_eraseIdx, if_pos hlt]
    omega
  · have h2 : i - N.subgraphs.length < N.atoms.length := by omega
    rw [if_pos (by omega), if_pos h2]
    refine ⟨_, rfl, rfl, ?_, List.eraseIdx_sublist _ _, List.Sublist.refl _⟩
    simp only [atoms_mk, subgraphs_mk, List.length_eraseIdx, if_pos h2]
    omega

theorem erase_at (g : AEGraph) (q : List Nat) (i : Nat) (N : AEGraph)
    (hN : node_at g q = some N) (hi : i < N.size) :
    ∃ N1, erase g (q ++ [i]) = some (set_node g q N1) ∧ node_at (set_node g q N1) q = some N1
      ∧ N1.is_SA = N.is_SA ∧ N1.size + 1 = N.size
      ∧ N1.atoms.Sublist N.atoms ∧ N1.subgraphs.Sublist N.subgraphs := by
  obtain ⟨N1, h1, h2, h3, h4, h5⟩ := erase_here_size N i hi
  refine ⟨N1, ?_, node_at_set_node q g N N1 hN, h2, h3, h4, h5⟩
  rw [erase, at_path_append, hN, Option.some_bind, h1]
  rfl

/-- C12: a path returned by `possible_erasures`, for any starting level,
addresses an element of the sheet or of a node with at least two elements; in
a graph whose nested nodes are cuts the sheet is the root, and the node left
by `erase` still has an element when it is a cut. -/
theorem erasure_singleton (g : AEGraph) (hcuts : nested_cuts g) (L : Int) (p : List Nat)
    (hp : p ∈ possible_erasures g L) :
    ∃ q i N, p = q ++ [i] ∧ node_at g q = some N ∧ i < N.size
      ∧ (N.is_SA = true ∨ 2 ≤ N.size) ∧ (N.is_SA = true → q = [])
      ∧ ∃ g1 N1, erase g p = some g1 ∧ node_at g1 q = some N1 ∧ N1.is_SA = N.is_SA
        ∧ N1.size + 1 = N.size ∧ (N1.is_SA = false → 1 ≤ N1.size) := by
  obtain ⟨q, i, N, rfl, hN, hi, _, hc⟩ := (mem_possible_erasures g L p).1 hp
  have hkind : N.is_SA = true ∨ 2 ≤ N.size := by
    cases hsa : N.is_SA with
    | true => exact Or.inl rfl
    | false =>
      right
      by_contra h2
      exact hc ⟨by omega, hsa⟩
  obtain ⟨N1, h1, h2, h3, h4, _, _⟩ := erase_at g q i N hN hi
  refine ⟨q, i, N, rfl, hN, hi, hkind, ?_, _, N1, h1, h2, h3, h4, ?_⟩
  · intro hsa
    by_contra hq
    have := hcuts q N hq hN
    rw [hsa] at this
    cases this
  · intro hcut
    rw [h3] at hcut
    rcases hkind with h | h
    · rw [h] at hcut; cases hcut
    · omega

/-- The witness of C12 on `([A, B])`: the atom at `[0, 0]` can be erased at
starting level 0, and the cut keeps the atom `B`. -/
theorem erasure_singleton_witness :
    parse "([A, B])".toList = some (mk true [] [mk false ["A".toList, "B".toList] []])
    ∧ (erase (mk true [] [mk false ["A".toList, "B".toList] []]) [0, 0]).map repr
        = some "([B])".toList
    ∧ ∃ q i N, [0, 0] = q ++ [i]
      ∧ node_at (mk true [] [mk false ["A".toList, "B".toList] []]) q = some N ∧ i < N.size
      ∧ (N.is_SA = true ∨ 2 ≤ N.size) ∧ (N.is_SA = true → q = [])
      ∧ ∃ g1 N1, erase (mk true [] [mk false ["A".toList, "B".toList] []]) [0, 0] = some g1
        ∧ node_at g1 q = some N1 ∧ N1.is_SA = N.is_SA
        ∧ N1.size + 1 = N.size ∧ (N1.is_SA = false → 1 ≤ N1.size) :=
  ⟨by decide, by decide,
    erasure_singleton (mk true [] [mk false ["A".toList, "B".toList] []])
      ((nested_cuts_mk _ _ _).2 (fun sg hsg => by
        simp only [List.mem_singleton] at hsg
        subst hsg
        exact ⟨rfl, (nested_cuts_mk _ _ _).2 (fun _ h => by cases h)⟩))
      0 [0, 0] (by decide)⟩

/-- C13: a path returned by `possible_erasures(0)` is a valid address, and the
node that holds the addressed element has one element less after `erase`. -/
theorem erasure_monotone (g : AEGraph) (p : List Nat) (hp : p ∈ possible_erasures g 0) :
    ∃ q i N g1 N1, p = q ++ [i] ∧ node_at g q = some N ∧ i < N.size
      ∧ (∃ e, elem_at g p = some e)
      ∧ erase g p = some g1 ∧ node_at g1 q = some N1 ∧ N1.size < N.size := by
  obtain ⟨q, i, N, rfl, hN, hi, _, _⟩ := (mem_possible_erasures g 0 p).1 hp
  obtain ⟨N1, h1, h2, _, h4, _, _⟩ := erase_at g q i N hN hi
  refine ⟨q, i, N, _, N1, rfl, hN, hi, ?_, h1, h2, by omega⟩
  rw [elem_at_append g N q i hN]
  unfold child
  unfold size num_atoms at hi
  by_cases hlt : i < N.num_subgraphs
  · rw [if_pos hlt]
    unfold num_subgraphs at hlt
    exact ⟨Elem.cut (N.subgraphs[i]), by simp [hlt]⟩
  · rw [if_neg hlt]
    have h2 : i - N.num_subgraphs < N.atoms.length := by omega
    exact ⟨Elem.atom (N.atoms[i - N.num_subgraphs]), by simp [h2]⟩

/-- The witness of C13 on `([A, B])`: after the erasure at `[0, 0]` the cut has
one element instead of two. -/
theorem erasure_monotone_witness :
    parse "([A, B])".toList = some (mk true [] [mk false ["A".toList, "B".toList] []])
    ∧ possible_erasures (mk true [] [mk false ["A".toList, "B".toList] []]) 0 = [[0, 0], [0, 1]]
    ∧ ∃ q i N g1 N1, [0, 1] = q ++ [i]
      ∧ node_at (mk true [] [mk false ["A".toList, "B".toList] []]) q = some N ∧ i < N.size
      ∧ (∃ e, elem_at (mk true [] [mk false ["A".toList, "B".toList] []]) [0, 1] = some e)
      ∧ erase (mk true [] [mk false ["A".toList, "B".toList] []]) [0, 1] = some g1
      ∧ node_at g1 q = some N1 ∧ N1.size < N.size :=
  ⟨by decide, by decide,
    erasure_monotone (mk true [] [mk false ["A".toList, "B".toList] []]) [0, 1] (by decide)⟩


/-! ### The paths to an atom are listed once -/

theorem nodup_atomPaths (a : Str) (big : Bool) (ns : Nat) (as : List Str) :
    ∀ i : Nat, (atomPaths a big ns i as).Nodup := by
  induction as with
  | nil => intro i; exact List.nodup_nil
  | cons x as ih =>
    intro i
    rw [atomPaths, List.nodup_append]
    refine ⟨?_, ih (i + 1), ?_⟩
    · split
      · exact List.nodup_singleton _
      · exact List.nodup_nil
    · intro p hp1 hp2
      obtain ⟨k, _, _, rfl⟩ := (mem_atomPaths a big ns as (i + 1) p).1 hp2
      split at hp1
      · simp only [List.mem_singleton, List.cons.injEq, and_true] at hp1
        omega
      · cases hp1

theorem nodup_pathsIn (a : Str) (sgs : List AEGraph)
    (h : ∀ sg ∈ sgs, (get_paths_to sg a).Nodup) : ∀ i : Nat, (pathsIn sgs i a).Nodup := by
  induction sgs with
  | nil => intro i; exact List.nodup_nil
  | cons sg sgs ih =>
    intro i
    rw [pathsIn, List.nodup_append]
    refine ⟨?_, ih (fun x hx => h x (List.mem_cons_of_mem _ hx)) (i + 1), ?_⟩
    · split
      · exact (h sg (List.mem_cons_self _ _)).map List.cons_injective
      · exact List.nodup_nil
    · intro p hp1 hp2
      obtain ⟨k, _, p1, _, _, _, rfl⟩ := (mem_pathsIn a sgs (i + 1) p).1 hp2
      split at hp1
      · obtain ⟨p0, _, he⟩ := List.mem_map.1 hp1
        simp only [List.cons.injEq] at he
        omega
      · cases hp1

theorem nodup_get_paths_to (a : Str) : ∀ g : AEGraph, (get_paths_to g a).Nodup := by
  intro g
  induction g using AEGraph.induct with
  | h b as sgs ih =>
    rw [get_paths_to, List.nodup_append]
    refine ⟨nodup_atomPaths _ _ _ _ _, nodup_pathsIn a sgs ih 0, ?_⟩
    intro p hp1 hp2
    obtain ⟨k, _, _, rfl⟩ := (mem_atomPaths _ _ _ _ _ p).1 hp1
    obtain ⟨k2, sg, p1, _, _, hp1m, he⟩ := (mem_pathsIn a sgs 0 _).1 hp2
    obtain ⟨q, j, N, rfl, _⟩ := (mem_get_paths_to a sg p1).1 hp1m
    have := congrArg List.length he
    simp at this

/-- C15: a path is returned by `get_paths_to` for the atom `a` exactly when it
is the address of an atom equal to `a` (the number of child cuts of the node
plus the position among its atoms) in a node of more than one element, and
no path is returned twice. -/
theorem get_paths_to_char (g : AEGraph) (a : Str) :
    (∀ p, p ∈ get_paths_to g a ↔
      ∃ q j N, p = q ++ [j + N.num_subgraphs] ∧ node_at g q = some N
        ∧ N.atoms[j]? = some a ∧ 1 < N.size ∧ elem_at g p = some (Elem.atom a))
    ∧ (get_paths_to g a).Nodup := by
  refine ⟨fun p => ?_, nodup_get_paths_to a g⟩
  rw [mem_get_paths_to]
  constructor
  · rintro ⟨q, j, N, rfl, hN, hj, hs⟩
    exact ⟨q, j, N, rfl, hN, hj, hs, by rw [elem_at_append g N q _ hN, child_atom N a j hj]⟩
  · rintro ⟨q, j, N, rfl, hN, hj, hs, _⟩
    exact ⟨q, j, N, rfl, hN, hj, hs⟩


/-! ### The paths to a cut -/

theorem length_le_intercalate (l : List Str) : ∀ e ∈ l, e.length ≤ (sep.intercalate l).length := by
  induction l with
  | nil => intro e he; cases he
  | cons x l ih =>
    intro e he
    cases l with
    | nil =>
      rw [intercalate_single]
      simp only [List.mem_singleton] at he
      rw [he]
    | cons y l =>
      rw [intercalate_cons_cons]
      simp only [List.length_append]
      rcases List.mem_cons.1 he with rfl | he
      · omega
      · have := ih e he
        omega

theorem repr_sub_lt (g sg : AEGraph) (h : sg ∈ g.subgraphs) :
    (repr sg).length < (repr g).length := by
  have h1 := length_le_intercalate (g.subgraphs.map repr ++ g.atoms) (repr sg)
    (List.mem_append_left _ (List.mem_map_of_mem _ h))
  rw [repr_eq g]
  cases g.is_SA <;> simp only [List.length_append, List.length_cons, List.length_nil,
    Bool.false_eq_true, if_false, if_true] <;> omega

/-- The serialization of a node below `g` is shorter than that of `g`. -/
theorem repr_node_lt (q : List Nat) : ∀ (g N : AEGraph), q ≠ [] → node_at g q = some N →
    (repr N).length < (repr g).length := by
  induction q with
  | nil => intro g N h; exact absurd rfl h
  | cons k q ih =>
    intro g N _ hN
    rw [node_at] at hN
    cases hk : g.subgraphs[k]? with
    | none => simp [hk] at hN
    | some sg =>
      simp only [hk] at hN
      have h1 := repr_sub_lt g sg (List.getElem?_mem hk)
      cases q with
      | nil =>
        simp only [node_at, Option.some.injEq] at hN
        rw [← hN]; exact h1
      | cons j q =>
        have := ih sg N (by simp) hN
        omega

/-- Every cut with the serialization of `other` inside a node of more than
one element is found by `get_paths_to(const AEGraph&)`. -/
theorem get_paths_to_graph_complete (other : AEGraph) (q : List Nat) :
    ∀ (g N c : AEGraph) (j : Nat), node_at g q = some N → N.subgraphs[j]? = some c →
      repr c = repr other → 1 < N.size → q ++ [j] ∈ get_paths_to_graph g other := by
  induction q with
  | nil =>
    intro g N c j hN hj hc hs
    simp only [node_at, Option.some.injEq] at hN
    subst hN
    cases g with
    | mk b as sgs =>
      rw [get_paths_to_graph, mem_graphPathsIn]
      refine ⟨j, c, hj, Or.inl ⟨⟨(eqv_iff c other).2 hc, ?_⟩, by simp⟩⟩
      simpa [size, num_atoms, num_subgraphs] using hs
  | cons k q ih =>
    intro g N c j hN hj hc hs
    rw [node_at] at hN
    cases hk : g.subgraphs[k]? with
    | none => simp [hk] at hN
    | some sg =>
      simp only [hk] at hN
      have hdeep : node_at sg (q ++ [j]) = some c := by
        rw [node_at_append, hN, Option.some_bind, node_at_single, hj]
      have hlt := repr_node_lt (q ++ [j]) sg c (by simp) hdeep
      have hne : ¬ (eqv sg other = true ∧
          decide (g.atoms.length + g.subgraphs.length > 1) = true) := by
        intro h
        have := (eqv_iff sg other).1 h.1
        rw [this, ← hc] at hlt
        omega
      cases g with
      | mk b as sgs =>
        rw [get_paths_to_graph, mem_graphPathsIn]
        exact ⟨k, sg, hk, Or.inr ⟨hne, q ++ [j], ih sg N c j hN hj hc hs, by simp⟩⟩

/-- C16 (amended): a path is returned by `get_paths_to` for the cut `other`
exactly when it addresses a cut with the serialization of `other` whose
containing node has more than one element. -/
theorem get_paths_to_graph_char (g other : AEGraph) (p : List Nat) :
    p ∈ get_paths_to_graph g other ↔
      ∃ q j N c, p = q ++ [j] ∧ node_at g q = some N ∧ N.subgraphs[j]? = some c
        ∧ repr c = repr other ∧ 1 < N.size := by
  constructor
  · exact get_paths_to_graph_sound other g p
  · rintro ⟨q, j, N, c, rfl, hN, hj, hc, hs⟩
    exact get_paths_to_graph_complete other q g N c j hN hj hc hs

/-- The counterexample to C16 as stated: in the graph of `([[A]])` the cut `[A]`
is the only content of its parent, at the address `[0, 0]`, and
`get_paths_to` for `[A]` returns no path. -/
theorem get_paths_to_graph_counterexample :
    parse "([[A]])".toList = some (mk true [] [mk false [] [mk false ["A".toList] []]])
    ∧ parse "[A]".toList = some (mk false ["A".toList] [])
    ∧ elem_at (mk true [] [mk false [] [mk false ["A".toList] []]]) [0, 0]
        = some (Elem.cut (mk false ["A".toList] []))
    ∧ get_paths_to_graph (mk true [] [mk false [] [mk false ["A".toList] []]])
        (mk false ["A".toList] []) = []
    ∧ [0, 0] ∉ get_paths_to_graph (mk true [] [mk false [] [mk false ["A".toList] []]])
        (mk false ["A".toList] []) :=
  ⟨by decide, by decide, by rfl, by decide, by decide⟩


/-! ### Which occurrences of a direct child are deiteration targets -/

theorem child_cut_inv (N c : AEGraph) (i : Nat) (h : child N i = some (Elem.cut c)) :
    N.subgraphs[i]? = some c := by
  unfold child at h
  by_cases hlt : i < N.num_subgraphs
  · rw [if_pos hlt] at h
    cases hs : N.subgraphs[i]? with
    | none => simp [hs] at h
    | some c1 =>
      simp only [hs, Option.map_some', Option.some.injEq, Elem.cut.injEq] at h
      rw [h]
  · rw [if_neg hlt] at h
    cases ha : N.atoms[i - N.num_subgraphs]? with
    | none => simp [ha] at h
    | some a => simp [ha] at h

theorem child_atom_inv (N : AEGraph) (a : Str) (i : Nat) (h : child N i = some (Elem.atom a)) :
    ∃ j, i = j + N.num_subgraphs ∧ N.atoms[j]? = some a := by
  unfold child at h
  by_cases hlt : i < N.num_subgraphs
  · rw [if_pos hlt] at h
    cases hs : N.subgraphs[i]? with
    | none => simp [hs] at h
    | some c1 => simp [hs] at h
  · rw [if_neg hlt] at h
    cases ha : N.atoms[i - N.num_subgraphs]? with
    | none => simp [ha] at h
    | some a1 =>
      simp only [ha, Option.map_some', Option.some.injEq, Elem.atom.injEq] at h
      exact ⟨i - N.num_subgraphs, by omega, by rw [ha, h]⟩

theorem drop_single_of_ne (r : List (List Nat)) (h : (singles r).length ≠ 1) :
    drop_single r = r := by
  rw [drop_single_eq, if_neg h]

theorem countP_eqv_congr (sgs : List AEGraph) (c d : AEGraph) (h : repr c = repr d) :
    sgs.countP (fun sg => eqv sg c) = sgs.countP (fun sg => eqv sg d) := by
  apply List.countP_congr
  intro x _
  rw [eqv_iff, eqv_iff, h]

theorem one_lt_size_of_atoms (g : AEGraph) (a : Str)
    (h : 2 ≤ g.atoms.countP (fun x => decide (x = a))) : 1 < g.size := by
  have := List.countP_le_length (fun x => decide (x = a)) (l := g.atoms)
  unfold size num_atoms
  omega

theorem one_lt_size_of_cuts (g c : AEGraph)
    (h : 2 ≤ g.subgraphs.countP (fun sg => eqv sg c)) : 1 < g.size := by
  have := List.countP_le_length (fun sg => eqv sg c) (l := g.subgraphs)
  unfold size num_subgraphs
  omega

/-- The occurrences of a direct child below the top node, in nodes of at least
two elements, are deiteration targets. -/
theorem deiteration_deep (g : AEGraph) (k : Nat) (x : Elem) (hx : child g k = some x)
    (q : List Nat) (i : Nat) (N : AEGraph) (e : Elem) (hq : q ≠ [])
    (hN : node_at g q = some N) (he : child N i = some e) (hsame : Elem.same x e)
    (hs : 2 ≤ N.size) : q ++ [i] ∈ possible_deiterations g := by
  have hlen : (q ++ [i]).length ≠ 1 := by
    cases q with
    | nil => exact absurd rfl hq
    | cons y q => simp
  rw [mem_possible_deiterations]
  cases x with
  | atom a =>
    cases e with
    | cut c => exact absurd hsame (by simp [Elem.same])
    | atom a1 =>
      have ha : a = a1 := hsame
      subst ha
      obtain ⟨j0, _, hj0⟩ := child_atom_inv g a k hx
      obtain ⟨j, rfl, hj⟩ := child_atom_inv N a i he
      right
      refine ⟨a, List.getElem?_mem hj0, drop_single_keeps _ _ ?_ hlen⟩
      exact (mem_get_paths_to a g _).2 ⟨q, j, N, rfl, hN, hj, by omega⟩
  | cut c =>
    cases e with
    | atom a => exact absurd hsame (by simp [Elem.same])
    | cut c1 =>
      have hc : repr c = repr c1 := hsame
      left
      refine ⟨k, c, child_cut_inv g c k hx, Or.inl (drop_single_keeps _ _ ?_ hlen)⟩
      exact get_paths_to_graph_complete c q g N c1 i hN (child_cut_inv N c1 i he) hc.symm
        (by omega)

/-- When a direct child occurs at least twice among the direct children, all
these occurrences are deiteration targets. -/
theorem deiteration_direct_many (g : AEGraph) (k : Nat) (x : Elem) (hx : child g k = some x)
    (hcount : 2 ≤ direct_count g x) (j : Nat) (e : Elem) (he : child g j = some e)
    (hsame : Elem.same x e) : [j] ∈ possible_deiterations g := by
  rw [mem_possible_deiterations]
  cases x with
  | atom a =>
    cases e with
    | cut c => exact absurd hsame (by simp [Elem.same])
    | atom a1 =>
      have ha : a = a1 := hsame
      subst ha
      have hc : 2 ≤ g.atoms.countP (fun x => decide (x = a)) := hcount
      have hsz := one_lt_size_of_atoms g a hc
      obtain ⟨j0, _, hj0⟩ := child_atom_inv g a k hx
      obtain ⟨j1, rfl, hj1⟩ := child_atom_inv g a j he
      right
      refine ⟨a, List.getElem?_mem hj0, ?_⟩
      rw [drop_single_of_ne]
      · exact (mem_get_paths_to a g _).2 ⟨[], j1, g, rfl, rfl, hj1, hsz⟩
      · rw [singles_get_paths_to, if_pos hsz]
        omega
  | cut c =>
    cases e with
    | atom a => exact absurd hsame (by simp [Elem.same])
    | cut c1 =>
      have hr : repr c = repr c1 := hsame
      have hc : 2 ≤ g.subgraphs.countP (fun sg => eqv sg c) := hcount
      have hsz := one_lt_size_of_cuts g c hc
      left
      refine ⟨k, c, child_cut_inv g c k hx, Or.inl ?_⟩
      rw [drop_single_of_ne]
      · exact get_paths_to_graph_complete c [] g g c1 j rfl (child_cut_inv g c1 j he) hr.symm hsz
      · rw [singles_get_paths_to_graph, if_pos hsz]
        omega

/-- When a direct child occurs once among the direct children, this
occurrence is not a deiteration target. -/
theorem deiteration_direct_one (g : AEGraph) (x : Elem) (hcount : direct_count g x = 1)
    (j : Nat) (e : Elem) (he : child g j = some e) (hsame : Elem.same x e) :
    [j] ∉ possible_deiterations g := by
  intro hp
  rcases (mem_possible_deiterations _ _).1 hp with ⟨k1, sg1, _, h | ⟨p1, hp1, hcons⟩⟩ | ⟨a1, _, h⟩
  · obtain ⟨hr, _⟩ := mem_drop_single _ _ h
    obtain ⟨q0, j2, N, c1, hpath, hN, hj2, hc1, hs⟩ := get_paths_to_graph_sound sg1 _ _ hr
    have hq0 : q0 = [] := by
      have := congrArg List.length hpath
      simp only [List.length_cons, List.length_nil, List.length_append] at this
      exact List.length_eq_zero.1 (by omega)
    subst hq0
    simp only [node_at, Option.some.injEq] at hN
    subst hN
    simp only [List.nil_append, List.cons.injEq, and_true] at hpath
    subst hpath
    have he2 := child_cut g c1 j hj2
    rw [he] at he2
    simp only [Option.some.injEq] at he2
    subst he2
    cases x with
    | atom a => exact absurd hsame (by simp [Elem.same])
    | cut c =>
      have hxc : repr c = repr c1 := hsame
      have hone : g.subgraphs.countP (fun sg => eqv sg c) = 1 := hcount
      have hsing : (singles (get_paths_to_graph g sg1)).length = 1 := by
        rw [singles_get_paths_to_graph, if_pos hs,
          countP_eqv_congr g.subgraphs sg1 c (hc1.symm.trans hxc.symm)]
        exact hone
      exact drop_single_removes _ _ hsing h rfl
  · obtain ⟨e1, he1, _⟩ := deiteration_partner sg1 p1 hp1
    have := elem_at_ne_nil sg1 p1 e1 he1
    simp only [List.cons.injEq] at hcons
    exact this hcons.2.symm
  · obtain ⟨hr, _⟩ := mem_drop_single _ _ h
    obtain ⟨q0, j2, N, hpath, hN, hj2, hs⟩ := (mem_get_paths_to a1 g _).1 hr
    have hq0 : q0 = [] := by
      have := congrArg List.length hpath
      simp only [List.length_cons, List.length_nil, List.length_append] at this
      exact List.length_eq_zero.1 (by omega)
    subst hq0
    simp only [node_at, Option.some.injEq] at hN
    subst hN
    simp only [List.nil_append, List.cons.injEq, and_true] at hpath
    subst hpath
    have he2 := child_atom g a1 j2 hj2
    rw [he] at he2
    simp only [Option.some.injEq] at he2
    subst he2
    cases x with
    | cut c => exact absurd hsame (by simp [Elem.same])
    | atom a =>
      have hxa : a = a1 := hsame
      subst hxa
      have hone : g.atoms.countP (fun y => decide (y = a)) = 1 := hcount
      have hsing : (singles (get_paths_to g a)).length = 1 := by
        rw [singles_get_paths_to, if_pos hs]
        exact hone
      exact drop_single_removes _ _ hsing h rfl

/-- C14 (amended): for a direct child `x` of the top node, the occurrences of
`x` below the top node in nodes of at least two elements are returned by
`possible_deiterations`; an occurrence among the direct children is returned
exactly when `x` occurs at least twice among them: a single one is the
original and is left out, several ones are all returned. -/
theorem deiteration_original (g : AEGraph) (k : Nat) (x : Elem) (hx : child g k = some x) :
    (∀ q i N e, q ≠ [] → node_at g q = some N → child N i = some e → Elem.same x e →
        2 ≤ N.size → q ++ [i] ∈ possible_deiterations g)
    ∧ (direct_count g x = 1 →
        ∀ j e, child g j = some e → Elem.same x e → [j] ∉ possible_deiterations g)
    ∧ (2 ≤ direct_count g x →
        ∀ j e, child g j = some e → Elem.same x e → [j] ∈ possible_deiterations g) :=
  ⟨fun q i N e hq hN he hsame hs => deiteration_deep g k x hx q i N e hq hN he hsame hs,
    fun hc j e he hsame => deiteration_direct_one g x hc j e he hsame,
    fun hc j e he hsame => deiteration_direct_many g k x hx hc j e he hsame⟩

/-- The witness of C14 (amended): in `(A, A)` the atom occurs twice among the
direct children and both `[0]` and `[1]` are returned; in `(A, [A, B])` it
occurs once, `[1]` is left out and `[0, 0]` is returned. -/
theorem deiteration_original_witness :
    parse "(A, A)".toList = some (mk true ["A".toList, "A".toList] [])
    ∧ [0] ∈ possible_deiterations (mk true ["A".toList, "A".toList] [])
    ∧ [1] ∈ possible_deiterations (mk true ["A".toList, "A".toList] [])
    ∧ parse "(A, [A, B])".toList
        = some (mk true ["A".toList] [mk false ["A".toList, "B".toList] []])
    ∧ [1] ∉ possible_deiterations (mk true ["A".toList] [mk false ["A".toList, "B".toList] []])
    ∧ [0, 0] ∈ possible_deiterations
        (mk true ["A".toList] [mk false ["A".toList, "B".toList] []]) :=
  ⟨by decide,
    (deiteration_original (mk true ["A".toList, "A".toList] []) 0 (Elem.atom "A".toList)
      rfl).2.2 (by decide) 0 (Elem.atom "A".toList) rfl rfl,
    (deiteration_original (mk true ["A".toList, "A".toList] []) 0 (Elem.atom "A".toList)
      rfl).2.2 (by decide) 1 (Elem.atom "A".toList) rfl rfl,
    by decide,
    (deiteration_original (mk true ["A".toList] [mk false ["A".toList, "B".toList] []]) 1
      (Elem.atom "A".toList) rfl).2.1 (by decide) 1 (Elem.atom "A".toList) rfl rfl,
    (deiteration_original (mk true ["A".toList] [mk false ["A".toList, "B".toList] []]) 1
      (Elem.atom "A".toList) rfl).1 [0] 0 (mk false ["A".toList, "B".toList] [])
      (Elem.atom "A".toList) (by simp) rfl rfl rfl (by decide)⟩

/-- The counterexample to C14 as stated: the atom `A` occurs twice in the
graph of `(A, A)`, at `[0]` and at `[1]`, and `possible_deiterations` returns
both paths, that is the paths of all the occurrences. -/
theorem deiteration_original_counterexample :
    parse "(A, A)".toList = some (mk true ["A".toList, "A".toList] [])
    ∧ child (mk true ["A".toList, "A".toList] []) 0 = some (Elem.atom "A".toList)
    ∧ child (mk true ["A".toList, "A".toList] []) 1 = some (Elem.atom "A".toList)
    ∧ possible_deiterations (mk true ["A".toList, "A".toList] []) = [[0], [1]] :=
  ⟨by decide, by rfl, by rfl, by decide⟩


/-! ### Canonical form and the three operations -/

/-- The nodes of a graph in which the node at `q` is replaced by `M`: a node
above `q`, a node of `M`, or an unchanged node of the graph. -/
theorem node_at_set_node_cases (q : List Nat) : ∀ (g M : AEGraph) (r : List Nat) (n : AEGraph),
    node_at (set_node g q M) r = some n →
      (r <+: q ∧ r ≠ q) ∨ (∃ r1, r = q ++ r1 ∧ node_at M r1 = some n) ∨ node_at g r = some n := by
  induction q with
  | nil =>
    intro g M r n h
    exact Or.inr (Or.inl ⟨r, rfl, h⟩)
  | cons k q ih =>
    intro g M r n h
    rw [set_node] at h
    cases hk : g.subgraphs[k]? with
    | none =>
      simp only [hk] at h
      exact Or.inr (Or.inr h)
    | some sg =>
      simp only [hk] at h
      cases r with
      | nil => exact Or.inl ⟨List.nil_prefix, by simp⟩
      | cons k2 r2 =>
        rw [node_at] at h
        simp only [subgraphs_mk] at h
        by_cases hkk : k2 = k
        · subst hkk
          have hlt : k2 < g.subgraphs.length := (List.getElem?_eq_some.1 hk).1
          simp only [List.getElem?_set, if_true, hlt] at h
          rcases ih sg M r2 n h with ⟨h1, h2⟩ | ⟨r1, h1, h2⟩ | h1
          · exact Or.inl ⟨(List.prefix_cons_inj k2).2 h1, by simpa using h2⟩
          · exact Or.inr (Or.inl ⟨r1, by simp [h1], h2⟩)
          · exact Or.inr (Or.inr (by simp [node_at, hk, h1]))
        · have hne : ¬ k = k2 := fun e => hkk e.symm
          simp only [List.getElem?_set, if_neg hne] at h
          exact Or.inr (Or.inr (by rw [node_at]; exact h))

theorem all_nodes_node (P : AEGraph → Prop) (q : List Nat) : ∀ (g N : AEGraph),
    all_nodes P g → node_at g q = some N → all_nodes P N := by
  intro g N h hN r n hn
  apply h (q ++ r) n
  rw [node_at_append, hN]
  exact hn

theorem child_some_lt (N : AEGraph) (i : Nat) (e : Elem) (h : child N i = some e) :
    i < N.size := by
  unfold child at h
  unfold size num_atoms
  by_cases hlt : i < N.num_subgraphs
  · omega
  · rw [if_neg hlt] at h
    cases ha : N.atoms[i - N.num_subgraphs]? with
    | none => simp [ha] at h
    | some a =>
      have := (List.getElem?_eq_some.1 ha).1
      omega

theorem valid_of_elem_at (g : AEGraph) (p : List Nat) (e : Elem) (h : elem_at g p = some e) :
    ∃ q i N, p = q ++ [i] ∧ node_at g q = some N ∧ i < N.size := by
  obtain ⟨q, i, rfl⟩ := path_split p (elem_at_ne_nil g p e h)
  rw [elem_at_snoc] at h
  cases hN : node_at g q with
  | none => simp [hN] at h
  | some N =>
    rw [hN, Option.some_bind] at h
    exact ⟨q, i, N, rfl, hN, child_some_lt N i e h⟩

theorem sorted_node_of_sublists (N N1 : AEGraph) (h : sorted_node N)
    (ha : N1.atoms.Sublist N.atoms) (hs : N1.subgraphs.Sublist N.subgraphs) : sorted_node N1 :=
  ⟨List.Pairwise.sublist ha h.1, List.Pairwise.sublist hs h.2⟩

/-- After `erase` at a valid address of a graph in canonical form, every node
that is not above the changed node is in canonical form. -/
theorem erase_frame (g : AEGraph) (hc : canonical g) (q : List Nat) (i : Nat) (N : AEGraph)
    (hN : node_at g q = some N) (hi : i < N.size) :
    ∃ g1, erase g (q ++ [i]) = some g1 ∧ deiterate g (q ++ [i]) = some g1
      ∧ ∀ r n, node_at g1 r = some n → ¬ (r <+: q ∧ r ≠ q) → sorted_node n := by
  obtain ⟨N1, h1, _, _, _, ha, hs⟩ := erase_at g q i N hN hi
  refine ⟨_, h1, h1, ?_⟩
  intro r n hn hr
  have hNc : canonical N := all_nodes_node _ q g N hc hN
  have hN1 : canonical N1 := by
    cases N1 with
    | mk b1 as1 sgs1 =>
      unfold canonical
      rw [all_nodes_mk]
      refine ⟨sorted_node_of_sublists N _ (all_nodes_root _ _ hNc) ha hs, ?_⟩
      intro sg hsg
      exact all_nodes_sub _ N sg hNc (hs.subset hsg)
  rcases node_at_set_node_cases q g N1 r n hn with h | ⟨r1, _, h⟩ | h
  · exact absurd h hr
  · exact hN1 r1 n h
  · exact hc r n h

/-- After `double_cut` at a path of `possible_double_cuts` of a graph in
canonical form, every node that is neither the changed node nor above it is
in canonical form. -/
theorem double_cut_frame (g : AEGraph) (hc : canonical g) (p : List Nat)
    (hp : p ∈ possible_double_cuts g) :
    ∃ q i g1, p = q ++ [i] ∧ double_cut g p = some g1
      ∧ ∀ r n, node_at g1 r = some n → ¬ (r <+: q) → sorted_node n := by
  obtain ⟨hne, c, hcn, hc1, hc2⟩ := (mem_possible_double_cuts g p).1 hp
  obtain ⟨q, i, rfl⟩ := path_split p hne
  rw [node_at_append] at hcn
  cases hN : node_at g q with
  | none => simp [hN] at hcn
  | some N =>
    rw [hN, Option.some_bind, node_at_single] at hcn
    obtain ⟨_, I, hsub⟩ := single_content c hc1 hc2
    have hNc : canonical N := all_nodes_node _ q g N hc hN
    have hcc : canonical c := all_nodes_sub _ N c hNc (List.getElem?_mem hcn)
    have hIc : canonical I := all_nodes_sub _ c I hcc (by rw [hsub]; simp)
    refine ⟨q, i, set_node g q (mk N.is_SA (N.atoms ++ I.atoms)
      ((N.subgraphs ++ I.subgraphs).eraseIdx i)), rfl, ?_, ?_⟩
    · rw [double_cut, at_path_append, hN, Option.some_bind, double_cut_here, hcn]
      simp only [hsub, List.getElem?_cons_zero, Option.map_some']
    · intro r n hn hr
      rcases node_at_set_node_cases q g _ r n hn with h | ⟨r1, h1, h⟩ | h
      · exact absurd h.1 hr
      · cases r1 with
        | nil => exact absurd (by rw [h1]; simp) hr
        | cons k r2 =>
          rw [node_at] at h
          simp only [subgraphs_mk] at h
          cases hk : ((N.subgraphs ++ I.subgraphs).eraseIdx i)[k]? with
          | none => simp [hk] at h
          | some sg =>
            simp only [hk] at h
            have hmem : sg ∈ N.subgraphs ++ I.subgraphs :=
              (List.eraseIdx_sublist _ _).subset (List.getElem?_mem hk)
            rcases List.mem_append.1 hmem with hm | hm
            · exact all_nodes_sub _ N sg hNc hm r2 n h
            · exact all_nodes_sub _ I sg hIc hm r2 n h
      · exact hc r n h

/-- C17 (amended): every graph built by the constructor is in canonical form,
and `sort` puts any graph in canonical form.  The three operations do not sort
their result.  In a graph in canonical form, after `erase` or `deiterate` at
a path of `possible_erasures` or of `possible_deiterations` every node is in
canonical form except, possibly, the nodes above the changed node; after
`double_cut` at a path of `possible_double_cuts` the same holds except,
possibly, for the changed node as well. -/
theorem canonical_invariant :
    (∀ s g, parse s = some g → canonical g)
    ∧ (∀ g, canonical (sort g))
    ∧ (∀ g L p, canonical g → (p ∈ possible_erasures g L ∨ p ∈ possible_deiterations g) →
        ∃ q i g1, p = q ++ [i] ∧ erase g p = some g1 ∧ deiterate g p = some g1
          ∧ ∀ r n, node_at g1 r = some n → ¬ (r <+: q ∧ r ≠ q) → sorted_node n)
    ∧ (∀ g p, canonical g → p ∈ possible_double_cuts g →
        ∃ q i g1, p = q ++ [i] ∧ double_cut g p = some g1
          ∧ ∀ r n, node_at g1 r = some n → ¬ (r <+: q) → sorted_node n) := by
  refine ⟨fun s g h => (parseFuel_nodes _ s g h).2, sort_canonical, ?_, ?_⟩
  · intro g L p hc hp
    have hv : ∃ q i N, p = q ++ [i] ∧ node_at g q = some N ∧ i < N.size := by
      rcases hp with hp | hp
      · obtain ⟨q, i, N, h1, h2, h3, _⟩ := (mem_possible_erasures g L p).1 hp
        exact ⟨q, i, N, h1, h2, h3⟩
      · obtain ⟨e, he, _⟩ := deiteration_partner g p hp
        exact valid_of_elem_at g p e he
    obtain ⟨q, i, N, rfl, hN, hi⟩ := hv
    obtain ⟨g1, h1, h2, h3⟩ := erase_frame g hc q i N hN hi
    exact ⟨q, i, g1, rfl, h1, h2, h3⟩
  · intro g p hc hp
    exact double_cut_frame g hc p hp

/-- The witness of C17 (amended) on `([A, B], [A, C])`: after the erasure at
`[0, 0]` the two cuts are in canonical form. -/
theorem canonical_invariant_witness :
    parse "([A, B], [A, C])".toList
      = some (mk true [] [mk false ["A".toList, "B".toList] [],
          mk false ["A".toList, "C".toList] []])
    ∧ canonical (mk true [] [mk false ["A".toList, "B".toList] [],
          mk false ["A".toList, "C".toList] []])
    ∧ ∃ q i g1, [0, 0] = q ++ [i]
      ∧ erase (mk true [] [mk false ["A".toList, "B".toList] [],
          mk false ["A".toList, "C".toList] []]) [0, 0] = some g1
      ∧ deiterate (mk true [] [mk false ["A".toList, "B".toList] [],
          mk false ["A".toList, "C".toList] []]) [0, 0] = some g1
      ∧ ∀ r n, node_at g1 r = some n → ¬ (r <+: q ∧ r ≠ q) → sorted_node n :=
  have hc : canonical (mk true [] [mk false ["A".toList, "B".toList] [],
      mk false ["A".toList, "C".toList] []]) :=
    canonical_invariant.1 "([A, B], [A, C])".toList _ (by decide)
  ⟨by decide, hc, canonical_invariant.2.2.1 _ 0 [0, 0] hc (Or.inl (by decide))⟩

theorem not_canonical_of_subgraphs (g : AEGraph) (h : ¬ g.subgraphs.Sorted graphLe) :
    ¬ canonical g :=
  fun hc => h (all_nodes_root _ g hc).2

theorem not_canonical_of_atoms (g : AEGraph) (h : ¬ g.atoms.Sorted strLe) : ¬ canonical g :=
  fun hc => h (all_nodes_root _ g hc).1

/-- The counterexamples to C17 as stated.  The graph of `([[A]], B)` is in
canonical form and its double cut at `[0]` gives `(B, A)`, whose atoms are not
sorted.  The graph of `([A, B], [A, C])` is in canonical form and the erasure
at `[0, 0]` gives `([B], [A, C])`, whose subgraphs are not sorted.  The graph of
`(A, [A, B], [A, C])` is in canonical form and the deiteration at `[0, 0]`
gives `([B], [A, C], A)`, whose subgraphs are not sorted. -/
theorem canonical_invariant_counterexample :
    (parse "([[A]], B)".toList
        = some (mk true ["B".toList] [mk false [] [mk false ["A".toList] []]])
      ∧ [0] ∈ possible_double_cuts (mk true ["B".toList] [mk false [] [mk false ["A".toList] []]])
      ∧ double_cut (mk true ["B".toList] [mk false [] [mk false ["A".toList] []]]) [0]
          = some (mk true ["B".toList, "A".toList] [])
      ∧ ¬ canonical (mk true ["B".toList, "A".toList] []))
    ∧ (parse "([A, B], [A, C])".toList
        = some (mk true [] [mk false ["A".toList, "B".toList] [],
            mk false ["A".toList, "C".toList] []])
      ∧ [0, 0] ∈ possible_erasures (mk true [] [mk false ["A".toList, "B".toList] [],
            mk false ["A".toList, "C".toList] []]) 0
      ∧ erase (mk true [] [mk false ["A".toList, "B".toList] [],
            mk false ["A".toList, "C".toList] []]) [0, 0]
          = some (mk true [] [mk false ["B".toList] [], mk false ["A".toList, "C".toList] []])
      ∧ ¬ canonical (mk true [] [mk false ["B".toList] [],
            mk false ["A".toList, "C".toList] []]))
    ∧ (parse "(A, [A, B], [A, C])".toList
        = some (mk true ["A".toList] [mk false ["A".toList, "B".toList] [],
            mk false ["A".toList, "C".toList] []])
      ∧ [0, 0] ∈ possible_deiterations (mk true ["A".toList]
            [mk false ["A".toList, "B".toList] [], mk false ["A".toList, "C".toList] []])
      ∧ deiterate (mk true ["A".toList] [mk false ["A".toList, "B".toList] [],
            mk false ["A".toList, "C".toList] []]) [0, 0]
          = some (mk true ["A".toList] [mk false ["B".toList] [],
              mk false ["A".toList, "C".toList] []])
      ∧ ¬ canonical (mk true ["A".toList] [mk false ["B".toList] [],
            mk false ["A".toList, "C".toList] []])) :=
  ⟨⟨by decide, by decide, by decide, not_canonical_of_atoms _ (by decide)⟩,
    ⟨by decide, by decide, by decide, not_canonical_of_subgraphs _ (by decide)⟩,
    ⟨by decide, by decide, by decide, not_canonical_of_subgraphs _ (by decide)⟩⟩


/-! ### Texts that list the same elements in a different order -/

end AEGraph
